import Mathlib

/-!
Verification of the leader-board ranked index
(`leader_board/logic/leader_board_logic.go`, `leader_board/model`).

The Go service keeps two co-maintained views of the same player entries:
a map `players` keyed by playerId, and a slice `ranking` sorted by the
comparator "higher score first, earlier timestamp first among equal
scores".  The map and the slice share pointers, and in every reachable
state the ranking holds exactly one entry per playerId, so Go's pointer
comparisons (`e == entry` in `removeFromRanking`, `findRank`, and
`GetPlayerDenseRankRange`) coincide with playerId equality.  The
embedding below therefore represents entries as values and models all
pointer comparisons as playerId comparisons; the map is an association
list of the same entry values.

Machine integers: scores, timestamps, ranks and indices are modelled
as unbounded `Int`.  Comparisons, rank counters and slice-index
arithmetic cannot overflow in Go (a slice length is a non-negative
`int` below 2^63 and indices stay below it), so they are left exact.
The window arithmetic of the two range queries, however, combines such
a value with the caller-supplied `rng` and does wrap in Go; each of
those operations is therefore taken modulo 2^64 into
`[-2^63, 2^63)` by `wrap64`, Go's two's-complement wrap-around.

`make([]T, 0, cap)` with a negative `cap` is a Go run-time panic
("makeslice: cap out of range"); the query functions reach such a `make`
when their `n` / `rng` argument is negative, which the embedding makes
explicit with a `panicked` result constructor.
-/

namespace LeaderBoard

/-- `model.PlayerEntry`: one participant's current standing. -/
structure PlayerEntry where
  playerId : String
  score : Int
  timestamp : Int
deriving DecidableEq

/-- `model.RankInfo`: read-only query projection. -/
structure RankInfo where
  playerId : String
  score : Int
  rank : Int
  timestamp : Int
deriving DecidableEq

/-- Builds the `model.RankInfo` struct literal used by every query. -/
def toRankInfo (e : PlayerEntry) (r : Int) : RankInfo :=
  { playerId := e.playerId, score := e.score, rank := r, timestamp := e.timestamp }

/-- The comparator of the ordered sequence, as a proposition: `a` may
stand (weakly) before `b` when `a` has the higher score, or equal score
and the earlier-or-equal timestamp. -/
def leOrd (a b : PlayerEntry) : Prop :=
  b.score < a.score ∨ (a.score = b.score ∧ a.timestamp ≤ b.timestamp)

instance (a b : PlayerEntry) : Decidable (leOrd a b) := by
  unfold leOrd; infer_instance

/-- The ranking slice is sorted by the comparator. -/
def Sorted (l : List PlayerEntry) : Prop := l.Pairwise leOrd

instance (l : List PlayerEntry) : Decidable (Sorted l) := by
  unfold Sorted; exact List.instDecidablePairwise l

/-- The predicate handed to `sort.Search` in `insertToRanking`, on one
element: true when the examined element must stand strictly after the
entry being inserted (lower score, or equal score and strictly later
timestamp). -/
def mustFollow (x entry : PlayerEntry) : Bool :=
  if x.score < entry.score then true
  else if x.score = entry.score then decide (entry.timestamp < x.timestamp)
  else false

/-- The index-level predicate of the `sort.Search` call: `sort.Search`
only evaluates it at indices `< n`, so the out-of-range value is
irrelevant; it is set to `false`. -/
def searchPred (ranking : List PlayerEntry) (entry : PlayerEntry) (i : Nat) : Bool :=
  match ranking[i]? with
  | some x => mustFollow x entry
  | none => false

/-- Go's `sort.Search` binary-search loop.  The loop interval `[i, j)`
shrinks on every iteration, so its width bounds the iteration count; the
first argument is that explicit bound (structural recursion in place of
the Go `for` loop). -/
def sortSearchAux (f : Nat → Bool) : Nat → Nat → Nat → Nat
  | 0, i, _ => i
  | fuel + 1, i, j =>
    if i < j then
      let m := (i + j) / 2
      if f m then sortSearchAux f fuel i m else sortSearchAux f fuel (m + 1) j
    else i

/-- `sort.Search(n, f)`: the smallest index in `[0, n]` at which `f`
flips to true, for a monotone `f`. -/
def sortSearch (n : Nat) (f : Nat → Bool) : Nat := sortSearchAux f n 0 n

/-- The insertion index chosen by `insertToRanking`'s `sort.Search` call. -/
def insertPos (entry : PlayerEntry) (ranking : List PlayerEntry) : Nat :=
  sortSearch ranking.length (searchPred ranking entry)

/-- `insertToRanking`: find the insertion index with `sort.Search`, then
shift the tail and place the entry there. -/
def insertToRanking (entry : PlayerEntry) (ranking : List PlayerEntry) : List PlayerEntry :=
  ranking.take (insertPos entry ranking) ++ entry :: ranking.drop (insertPos entry ranking)

/-- `removeFromRanking`: drop the first (in reachable states, the only)
element that is the given entry; Go compares pointers, modelled as
playerId equality. -/
def removeFromRanking (entry : PlayerEntry) (ranking : List PlayerEntry) : List PlayerEntry :=
  ranking.eraseP (fun e => e.playerId == entry.playerId)

/-- `findRank`: linear scan for the entry's position; `-1` when absent. -/
def findRank (entry : PlayerEntry) (ranking : List PlayerEntry) : Int :=
  match ranking.findIdx? (fun e => e.playerId == entry.playerId) with
  | some i => (i : Int)
  | none => -1

/-- `logic.LeaderboardService`: the identity map (as an association list
of the shared entry values) and the rank-ordered slice. -/
structure LeaderboardService where
  players : List PlayerEntry
  ranking : List PlayerEntry
deriving DecidableEq

/-- `NewLeaderboardService`: empty map, empty ranking. -/
def NewLeaderboardService : LeaderboardService :=
  { players := [], ranking := [] }

/-- `UpdateScore`: for a known id, remove the old entry from the
ranking, mutate its fields in place (visible through the map's shared
pointer, modelled by rewriting the map's entry), and re-insert; for a new
id, create the entry in both views. -/
def UpdateScore (lb : LeaderboardService) (playerId : String) (score timestamp : Int) :
    LeaderboardService :=
  match lb.players.find? (fun e => e.playerId == playerId) with
  | some old =>
    let entry : PlayerEntry := ⟨playerId, score, timestamp⟩
    { players := lb.players.map (fun e => if e.playerId == playerId then entry else e),
      ranking := insertToRanking entry (removeFromRanking old lb.ranking) }
  | none =>
    let entry : PlayerEntry := ⟨playerId, score, timestamp⟩
    { players := entry :: lb.players,
      ranking := insertToRanking entry lb.ranking }

/-- `GetPlayerRank`: `nil` (here `none`) for an unknown id, otherwise
the entry with standard rank `findRank + 1`. -/
def GetPlayerRank (lb : LeaderboardService) (playerId : String) : Option RankInfo :=
  match lb.players.find? (fun e => e.playerId == playerId) with
  | none => none
  | some entry => some (toRankInfo entry (findRank entry lb.ranking + 1))

/-- Result type of `GetTopN` / `GetDenseTopN`: either the Go run-time
panic raised by `make` with a negative capacity, or the returned slice. -/
inductive TopResult where
  | panicked
  | ok (entries : List RankInfo)
deriving DecidableEq

/-- Result type of the two range queries: the `make` panic, the `nil`
"unknown player" return, or the returned slice. -/
inductive RangeResult where
  | panicked
  | notFound
  | found (entries : List RankInfo)
deriving DecidableEq

/-- `GetTopN`: `make([]RankInfo, 0, n)` panics for `n < 0`; otherwise
the first `min n (population)` entries with ranks `i + 1`. -/
def GetTopN (lb : LeaderboardService) (n : Int) : TopResult :=
  if n < 0 then .panicked
  else .ok ((lb.ranking.take n.toNat).enum.map (fun ie => toRankInfo ie.2 ((ie.1 : Int) + 1)))

/-- The body of the `for i := start; i <= stop; i++` loop of
`GetPlayerRankRange`, reading `ranking[i]` and tagging rank `i + 1`.
The loop runs `stop + 1 - start` times, which the first argument bounds
(structural recursion in place of the Go `for` loop); at every call site
the window has already been clipped into the slice bounds, so the `getD`
default is never read. -/
def sliceLoopAux (ranking : List PlayerEntry) : Nat → Int → Int → List RankInfo
  | 0, _, _ => []
  | fuel + 1, i, stop =>
    if i ≤ stop then
      toRankInfo (ranking.getD i.toNat ⟨"", 0, 0⟩) (i + 1) :: sliceLoopAux ranking fuel (i + 1) stop
    else []

/-- The collection loop of `GetPlayerRankRange` over positions
`[start, stop]`. -/
def sliceLoop (ranking : List PlayerEntry) (start stop : Int) : List RankInfo :=
  sliceLoopAux ranking (stop + 1 - start).toNat start stop

/-- Two's-complement wrap-around of Go's 64-bit `int`: the machine
value, in `[-9223372036854775808, 9223372036854775808)`, of an
arithmetic result. -/
def wrap64 (x : Int) : Int :=
  (x + 9223372036854775808) % 18446744073709551616 - 9223372036854775808

/-- `GetPlayerRankRange`: `nil` for an unknown id; otherwise clip the
window `[rank - rng, rank + rng]` to the population, panic on a
negative capacity `end - start + 1` handed to `make`, and collect the
window with standard ranks.  `rank - rng`, `rank + rng`, `end - start`
and its `+ 1` mix the caller-supplied `rng` into the arithmetic, so
each wraps at 64 bits as in Go; `len - 1` and the loop's `i + 1` stay
below the slice length and are left exact. -/
def GetPlayerRankRange (lb : LeaderboardService) (playerId : String) (rng : Int) : RangeResult :=
  match lb.players.find? (fun e => e.playerId == playerId) with
  | none => .notFound
  | some entry =>
    let rank := findRank entry lb.ranking
    let start0 := wrap64 (rank - rng)
    let start := if start0 < 0 then 0 else start0
    let stop0 := wrap64 (rank + rng)
    let stop :=
      if (lb.ranking.length : Int) ≤ stop0 then (lb.ranking.length : Int) - 1
      else stop0
    if wrap64 (wrap64 (stop - start) + 1) < 0 then .panicked
    else .found (sliceLoop lb.ranking start stop)

/-- The dense-rank loop body shared by `findDenseRank`, `GetDenseTopN`
and `GetPlayerDenseRankRange`: walk the slice carrying the running rank,
the previous score (initially `-1`) and the `i == 0` flag, pairing every
entry with its dense rank. -/
def denseAux : Int → Int → Bool → List PlayerEntry → List (PlayerEntry × Int)
  | _, _, _, [] => []
  | rank, prevScore, first, e :: rest =>
    if first = true ∨ e.score ≠ prevScore then
      let newRank := if first = true then rank else rank + 1
      (e, newRank) :: denseAux newRank e.score false rest
    else
      (e, rank) :: denseAux rank prevScore false rest

/-- Every entry of the slice paired with its dense rank (the contents of
the `denseRanks` array of `GetPlayerDenseRankRange`). -/
def denseAnnotate (ranking : List PlayerEntry) : List (PlayerEntry × Int) :=
  denseAux 1 (-1) true ranking

/-- The `denseRanks` array itself. -/
def denseRanks (ranking : List PlayerEntry) : List Int :=
  (denseAnnotate ranking).map Prod.snd

/-- `GetDenseTopN`: `make([]RankInfo, 0, n)` panics for `n < 0`;
otherwise the first `min n (population)` entries, each with the dense
rank computed by the running loop. -/
def GetDenseTopN (lb : LeaderboardService) (n : Int) : TopResult :=
  if n < 0 then .panicked
  else .ok ((denseAnnotate (lb.ranking.take n.toNat)).map (fun er => toRankInfo er.1 er.2))

/-- `GetPlayerDenseRankRange`: `nil` for an unknown id; otherwise
compute every dense rank, locate the player's own dense rank (`0` if the
scan falls through), panic on a negative capacity `2*rng + 1` handed
to `make`, and keep every entry whose dense rank lies in the band.
`2*rng`, its `+ 1`, and the band bounds `playerDenseRank - rng` /
`playerDenseRank + rng` mix the caller-supplied `rng` into the
arithmetic, so each wraps at 64 bits as in Go. -/
def GetPlayerDenseRankRange (lb : LeaderboardService) (playerId : String) (rng : Int) :
    RangeResult :=
  match lb.players.find? (fun e => e.playerId == playerId) with
  | none => .notFound
  | some entry =>
    let ann := denseAnnotate lb.ranking
    let playerDenseRank : Int :=
      match ann.find? (fun er => er.1.playerId == entry.playerId) with
      | some er => er.2
      | none => 0
    if wrap64 (wrap64 (2 * rng) + 1) < 0 then .panicked
    else .found
      ((ann.filter (fun er =>
          decide (wrap64 (playerDenseRank - rng) ≤ er.2) &&
            decide (er.2 ≤ wrap64 (playerDenseRank + rng)))).map
        (fun er => toRankInfo er.1 er.2))

/-- A sequence of `UpdateScore` calls applied to the fresh service:
the reachable states of the claims. -/
def applyUpdates (ups : List (String × Int × Int)) : LeaderboardService :=
  ups.foldl (fun lb u => UpdateScore lb u.1 u.2.1 u.2.2) NewLeaderboardService

/-- The reference dense rank of the specification: one more than the
number of distinct score values strictly greater than `s` among the
previously enumerated scores. -/
def denseRankRef (prev : List Int) (s : Int) : Int :=
  1 + ((prev.filter (fun x => decide (s < x))).dedup.length : Int)

/-- The internal consistency invariant of every reachable service
state: the ranking is sorted by the comparator, holds at most one entry
per playerId, and is a permutation of the map's entries. -/
structure Inv (lb : LeaderboardService) : Prop where
  sorted : Sorted lb.ranking
  nodupIds : (lb.ranking.map PlayerEntry.playerId).Nodup
  perm : lb.players.Perm lb.ranking

/-! ### The comparator is a total preorder -/

theorem leOrd_refl (a : PlayerEntry) : leOrd a a := Or.inr ⟨rfl, le_refl _⟩

theorem leOrd_total (a b : PlayerEntry) : leOrd a b ∨ leOrd b a := by
  unfold leOrd; omega

theorem leOrd_trans {a b c : PlayerEntry} (h1 : leOrd a b) (h2 : leOrd b c) : leOrd a c := by
  unfold leOrd at *; omega

theorem mustFollow_false_iff (x e : PlayerEntry) : mustFollow x e = false ↔ leOrd x e := by
  unfold mustFollow leOrd
  split_ifs with h1 h2 <;> simp <;> omega

theorem mustFollow_true_iff (x e : PlayerEntry) : mustFollow x e = true ↔ ¬ leOrd x e := by
  rw [← mustFollow_false_iff]
  cases h : mustFollow x e <;> simp [h]

/-! ### Go's `sort.Search`: a correct binary search for monotone predicates -/

theorem sortSearchAux_bounds (f : Nat → Bool) :
    ∀ fuel i j, i ≤ j → i ≤ sortSearchAux f fuel i j ∧ sortSearchAux f fuel i j ≤ j := by
  intro fuel
  induction fuel with
  | zero => intro i j h; simp [sortSearchAux]; omega
  | succ fuel ih =>
    intro i j h
    unfold sortSearchAux
    dsimp only
    split
    · rename_i hij
      have hm1 : i ≤ (i + j) / 2 := by omega
      have hm2 : (i + j) / 2 < j := by omega
      split
      · have := ih i ((i + j) / 2) hm1
        omega
      · have := ih ((i + j) / 2 + 1) j (by omega)
        omega
    · omega

theorem sortSearchAux_true (f : Nat → Bool) :
    ∀ fuel i j, j - i ≤ fuel → i ≤ j →
      sortSearchAux f fuel i j < j → f (sortSearchAux f fuel i j) = true := by
  intro fuel
  induction fuel with
  | zero =>
    intro i j hf hij hlt
    simp [sortSearchAux] at hlt
    omega
  | succ fuel ih =>
    intro i j hf hij
    unfold sortSearchAux
    dsimp only
    split
    · rename_i hij'
      have hm1 : i ≤ (i + j) / 2 := by omega
      have hm2 : (i + j) / 2 < j := by omega
      split
      · rename_i hfm
        intro hlt
        have hb := sortSearchAux_bounds f fuel i ((i + j) / 2) hm1
        rcases Nat.lt_or_ge (sortSearchAux f fuel i ((i + j) / 2)) ((i + j) / 2) with h | h
        · exact ih i ((i + j) / 2) (by omega) hm1 h
        · have : sortSearchAux f fuel i ((i + j) / 2) = (i + j) / 2 := by omega
          rw [this]; exact hfm
      · exact ih ((i + j) / 2 + 1) j (by omega) (by omega)
    · intro hlt; omega

theorem sortSearchAux_false (f : Nat → Bool) :
    ∀ fuel i j, j - i ≤ fuel →
      (∀ a b, a ≤ b → b < j → f a = true → f b = true) →
      ∀ k, i ≤ k → k < sortSearchAux f fuel i j → f k = false := by
  intro fuel
  induction fuel with
  | zero =>
    intro i j hf _ k hk1 hk2
    simp [sortSearchAux] at hk2
    omega
  | succ fuel ih =>
    intro i j hf mono k hk1
    unfold sortSearchAux
    dsimp only
    split
    · rename_i hij'
      have hm1 : i ≤ (i + j) / 2 := by omega
      have hm2 : (i + j) / 2 < j := by omega
      split
      · rename_i hfm
        exact ih i ((i + j) / 2) (by omega)
          (fun a b hab hb ha => mono a b hab (by omega) ha) k hk1
      · rename_i hfm
        intro hk2
        rcases Nat.lt_or_ge ((i + j) / 2) k with h | h
        · exact ih ((i + j) / 2 + 1) j (by omega) mono k (by omega) hk2
        · cases hfk : f k
          · rfl
          · exact absurd (mono k ((i + j) / 2) h hm2 hfk) (by simp [hfm])
    · intro hk2; omega

/-! ### The insertion index against a sorted ranking -/

theorem insertPos_le (entry : PlayerEntry) (l : List PlayerEntry) :
    insertPos entry l ≤ l.length :=
  (sortSearchAux_bounds _ _ 0 l.length (Nat.zero_le _)).2

theorem sorted_get_le {l : List PlayerEntry} (hs : Sorted l) (a b : Nat)
    (hab : a ≤ b) (hb : b < l.length) :
    leOrd (l.get ⟨a, by omega⟩) (l.get ⟨b, hb⟩) := by
  rcases Nat.lt_or_ge a b with h | h
  · exact List.pairwise_iff_get.1 hs ⟨a, by omega⟩ ⟨b, hb⟩ h
  · have : a = b := by omega
    subst this
    exact leOrd_refl _

theorem searchPred_mono {l : List PlayerEntry} (e : PlayerEntry) (hs : Sorted l) :
    ∀ a b, a ≤ b → b < l.length → searchPred l e a = true → searchPred l e b = true := by
  intro a b hab hb ha
  have hal : a < l.length := by
    by_contra hc
    have : l[a]? = none := by
      rw [List.getElem?_eq_none_iff]; omega
    simp [searchPred, this] at ha
  rw [searchPred, List.getElem?_eq_getElem hal] at ha
  rw [searchPred, List.getElem?_eq_getElem hb]
  simp only at ha ⊢
  rw [mustFollow_true_iff] at ha ⊢
  intro hle
  exact ha (leOrd_trans (sorted_get_le hs a b hab hb) hle)

theorem leOrd_of_lt_insertPos {l : List PlayerEntry} {e : PlayerEntry} (hs : Sorted l)
    {k : Nat} (hk : k < insertPos e l) :
    leOrd (l.get ⟨k, by have := insertPos_le e l; omega⟩) e := by
  have hkl : k < l.length := by have := insertPos_le e l; omega
  have hfalse : searchPred l e k = false :=
    sortSearchAux_false (searchPred l e) l.length 0 l.length (by omega)
      (fun a b hab hb ha => searchPred_mono e hs a b hab hb ha) k (Nat.zero_le _) hk
  rw [searchPred, List.getElem?_eq_getElem hkl] at hfalse
  simp only at hfalse
  rw [mustFollow_false_iff] at hfalse
  exact hfalse

theorem not_leOrd_of_insertPos_le {l : List PlayerEntry} {e : PlayerEntry} (hs : Sorted l)
    {k : Nat} (h1 : insertPos e l ≤ k) (h2 : k < l.length) :
    ¬ leOrd (l.get ⟨k, h2⟩) e := by
  have hidx : insertPos e l < l.length := by omega
  have htrue : searchPred l e (insertPos e l) = true :=
    sortSearchAux_true (searchPred l e) l.length 0 l.length (by omega) (Nat.zero_le _) hidx
  have hk : searchPred l e k = true := searchPred_mono e hs _ _ h1 h2 htrue
  rw [searchPred, List.getElem?_eq_getElem h2] at hk
  simp only at hk
  rw [mustFollow_true_iff] at hk
  exact hk

theorem leOrd_of_insertPos_le {l : List PlayerEntry} {e : PlayerEntry} (hs : Sorted l)
    {k : Nat} (h1 : insertPos e l ≤ k) (h2 : k < l.length) :
    leOrd e (l.get ⟨k, h2⟩) := by
  rcases leOrd_total e (l.get ⟨k, h2⟩) with h | h
  · exact h
  · exact absurd h (not_leOrd_of_insertPos_le hs h1 h2)

/-! ### Insertion: permutation and sortedness -/

theorem insertToRanking_perm (e : PlayerEntry) (l : List PlayerEntry) :
    (insertToRanking e l).Perm (e :: l) := by
  have h := @List.perm_middle _ e (l.take (insertPos e l)) (l.drop (insertPos e l))
  rw [List.take_append_drop] at h
  exact h

theorem mem_take_idx {l : List PlayerEntry} {n : Nat} {x : PlayerEntry} (h : x ∈ l.take n) :
    ∃ k, ∃ hk : k < l.length, k < n ∧ l.get ⟨k, hk⟩ = x := by
  rw [List.mem_iff_getElem] at h
  obtain ⟨k, hk, hx⟩ := h
  rw [List.length_take] at hk
  have hk1 : k < l.length := by omega
  refine ⟨k, hk1, by omega, ?_⟩
  rw [← hx, List.getElem_take]
  rfl

theorem mem_drop_idx {l : List PlayerEntry} {n : Nat} {x : PlayerEntry} (h : x ∈ l.drop n) :
    ∃ k, ∃ hk : k < l.length, n ≤ k ∧ l.get ⟨k, hk⟩ = x := by
  rw [List.mem_iff_getElem] at h
  obtain ⟨k, hk, hx⟩ := h
  rw [List.length_drop] at hk
  have hk1 : n + k < l.length := by omega
  refine ⟨n + k, hk1, by omega, ?_⟩
  rw [← hx, List.getElem_drop]
  rfl

theorem insertToRanking_sorted {l : List PlayerEntry} (e : PlayerEntry) (hs : Sorted l) :
    Sorted (insertToRanking e l) := by
  unfold insertToRanking Sorted
  rw [List.pairwise_append]
  refine ⟨List.Pairwise.sublist (List.take_sublist _ _) hs, ?_, ?_⟩
  · rw [List.pairwise_cons]
    refine ⟨?_, List.Pairwise.sublist (List.drop_sublist _ _) hs⟩
    intro b hb
    obtain ⟨k, hk, hnk, hbx⟩ := mem_drop_idx hb
    rw [← hbx]
    exact leOrd_of_insertPos_le hs hnk hk
  · intro a ha b hb
    obtain ⟨k, hk, hkn, hax⟩ := mem_take_idx ha
    rcases List.mem_cons.1 hb with rfl | hb
    · rw [← hax]
      exact leOrd_of_lt_insertPos hs hkn
    · obtain ⟨k', hk', hnk', hbx⟩ := mem_drop_idx hb
      rw [← hax, ← hbx]
      exact sorted_get_le hs k k' (by omega) hk'

/-! ### Small list utilities -/

theorem map_noop {α : Type} {f : α → α} : ∀ {l : List α}, (∀ x ∈ l, f x = x) → l.map f = l
  | [], _ => rfl
  | a :: l, h => by
    rw [List.map_cons, h a (by simp), map_noop (fun x hx => h x (by simp [hx]))]

theorem eraseP_append_none {α : Type} {p : α → Bool} {l₁ l₂ : List α}
    (h : ∀ a ∈ l₁, ¬ p a) : (l₁ ++ l₂).eraseP p = l₁ ++ l₂.eraseP p := by
  induction l₁ with
  | nil => simp
  | cons a l ih =>
    rw [List.cons_append, List.eraseP_cons_of_neg (h a (by simp)), ih (fun x hx => h x (by simp [hx])),
      List.cons_append]

/-! ### The invariant holds in every reachable state -/

theorem inv_new : Inv NewLeaderboardService :=
  ⟨List.Pairwise.nil, List.nodup_nil, List.Perm.refl _⟩

theorem nodup_ids_players {lb : LeaderboardService} (h : Inv lb) :
    (lb.players.map PlayerEntry.playerId).Nodup :=
  ((h.perm.map PlayerEntry.playerId).nodup_iff).2 h.nodupIds

theorem inv_update {lb : LeaderboardService} (h : Inv lb) (p : String) (s t : Int) :
    Inv (UpdateScore lb p s t) := by
  unfold UpdateScore
  cases hfind : lb.players.find? (fun e => e.playerId == p) with
  | none =>
    dsimp only
    have hnone : ∀ x ∈ lb.players, x.playerId ≠ p := by
      intro x hx
      have := List.find?_eq_none.1 hfind x hx
      simpa using this
    have hnoner : ∀ x ∈ lb.ranking, x.playerId ≠ p := fun x hx =>
      hnone x (h.perm.mem_iff.2 hx)
    refine ⟨insertToRanking_sorted _ h.sorted, ?_, ?_⟩
    · have hperm := (insertToRanking_perm ⟨p, s, t⟩ lb.ranking).map PlayerEntry.playerId
      rw [hperm.nodup_iff, List.map_cons]
      exact List.Nodup.cons (by simpa using hnoner) h.nodupIds
    · exact (h.perm.cons _).trans (insertToRanking_perm _ _).symm
  | some old =>
    dsimp only
    have hop : old.playerId = p := by
      have := List.find?_some hfind
      simpa using this
    have hmem : old ∈ lb.players := List.mem_of_find?_eq_some hfind
    have hmemr : old ∈ lb.ranking := h.perm.mem_iff.1 hmem
    have hpw : lb.ranking.Pairwise
        (fun a b => (a.playerId == p) = true → (b.playerId == p) = true → False) := by
      have := (List.pairwise_map.1 h.nodupIds)
      exact this.imp (by intro a b hab ha hb; exact hab (by simp at ha hb; rw [ha, hb]))
    have hpwp : lb.players.Pairwise
        (fun a b => (a.playerId == p) = true → (b.playerId == p) = true → False) := by
      have := (List.pairwise_map.1 (nodup_ids_players h))
      exact this.imp (by intro a b hab ha hb; exact hab (by simp at ha hb; rw [ha, hb]))
    obtain ⟨q₁, q₂, hq⟩ := List.append_of_mem hmem
    have hq12 : ∀ x ∈ q₁ ++ q₂, x.playerId ≠ p := by
      have hnd := nodup_ids_players h
      rw [hq, List.map_append, List.map_cons, List.nodup_middle, List.nodup_cons] at hnd
      intro x hx hxp
      exact hnd.1 (by rw [hop, ← hxp, ← List.map_append]; exact List.mem_map_of_mem _ hx)
    have hrem : removeFromRanking old lb.ranking = lb.ranking.eraseP (fun e => e.playerId == p) := by
      unfold removeFromRanking
      rw [hop]
    have hsorted' : Sorted (lb.ranking.eraseP (fun e => e.playerId == p)) :=
      List.Pairwise.sublist (List.eraseP_sublist _) h.sorted
    have hsub : List.Sublist
        ((lb.ranking.eraseP (fun e => e.playerId == p)).map PlayerEntry.playerId)
        (lb.ranking.map PlayerEntry.playerId) := (List.eraseP_sublist _).map _
    have hnd' : ((lb.ranking.eraseP (fun e => e.playerId == p)).map PlayerEntry.playerId).Nodup :=
      List.Nodup.sublist hsub h.nodupIds
    obtain ⟨a', r₁, r₂, hr1, hpa, hrq, hre⟩ :=
      List.exists_of_eraseP (p := fun e => e.playerId == p) hmemr (by simp [hop])
    have hap : a'.playerId = p := by simpa using hpa
    have hnopr : ∀ x ∈ lb.ranking.eraseP (fun e => e.playerId == p), x.playerId ≠ p := by
      rw [hre]
      have hnd := h.nodupIds
      rw [hrq, List.map_append, List.map_cons, List.nodup_middle, List.nodup_cons] at hnd
      intro x hx hxp
      exact hnd.1 (by rw [hap, ← hxp, ← List.map_append]; exact List.mem_map_of_mem _ hx)
    rw [hrem]
    refine ⟨insertToRanking_sorted _ hsorted', ?_, ?_⟩
    · have hperm := (insertToRanking_perm ⟨p, s, t⟩
        (lb.ranking.eraseP (fun e => e.playerId == p))).map PlayerEntry.playerId
      rw [hperm.nodup_iff, List.map_cons, List.nodup_cons]
      exact ⟨by simpa using hnopr, hnd'⟩
    · -- players.map f ~ insertToRanking entry (eraseP ranking)
      have hfold : lb.players.map
          (fun e => if e.playerId == p then (⟨p, s, t⟩ : PlayerEntry) else e) =
          q₁ ++ (⟨p, s, t⟩ : PlayerEntry) :: q₂ := by
        rw [hq, List.map_append, List.map_cons]
        rw [map_noop (fun x hx =>
          if_neg (by simpa using hq12 x (List.mem_append.2 (Or.inl hx))))]
        rw [map_noop (fun x hx =>
          if_neg (by simpa using hq12 x (List.mem_append.2 (Or.inr hx))))]
        rw [if_pos (by simp [hop])]
      rw [hfold]
      have h1 : (q₁ ++ (⟨p, s, t⟩ : PlayerEntry) :: q₂).Perm
          ((⟨p, s, t⟩ : PlayerEntry) :: (q₁ ++ q₂)) := List.perm_middle
      have h2 : q₁ ++ q₂ = lb.players.eraseP (fun e => e.playerId == p) := by
        rw [hq, eraseP_append_none (fun x hx => by simpa using hq12 x (List.mem_append.2 (Or.inl hx)))]
        rw [List.eraseP_cons_of_pos (by simp [hop])]
      have h3 : (lb.players.eraseP (fun e => e.playerId == p)).Perm
          (lb.ranking.eraseP (fun e => e.playerId == p)) :=
        h.perm.eraseP _ hpwp
      refine h1.trans ?_
      rw [h2]
      exact (h3.cons _).trans (insertToRanking_perm _ _).symm

theorem inv_foldl :
    ∀ (ups : List (String × Int × Int)) (lb : LeaderboardService), Inv lb →
      Inv (ups.foldl (fun lb u => UpdateScore lb u.1 u.2.1 u.2.2) lb)
  | [], _, h => h
  | u :: ups, lb, h => inv_foldl ups _ (inv_update h u.1 u.2.1 u.2.2)

theorem inv_applyUpdates (ups : List (String × Int × Int)) : Inv (applyUpdates ups) :=
  inv_foldl ups _ inv_new

/-! ### Unfolding equations and shape of `UpdateScore` -/

theorem map_eq_of_forall {α β : Type} {f g : α → β} :
    ∀ {l : List α}, (∀ x ∈ l, f x = g x) → l.map f = l.map g
  | [], _ => rfl
  | a :: l, h => by
    rw [List.map_cons, List.map_cons, h a (by simp),
      map_eq_of_forall (fun x hx => h x (by simp [hx]))]

theorem updateScore_of_find_some {lb : LeaderboardService} {p : String} {old : PlayerEntry}
    (hfind : lb.players.find? (fun e => e.playerId == p) = some old) (s t : Int) :
    UpdateScore lb p s t =
      { players := lb.players.map
          (fun e => if e.playerId == p then (⟨p, s, t⟩ : PlayerEntry) else e),
        ranking := insertToRanking ⟨p, s, t⟩ (removeFromRanking old lb.ranking) } := by
  unfold UpdateScore
  rw [hfind]

theorem updateScore_of_find_none {lb : LeaderboardService} {p : String}
    (hfind : lb.players.find? (fun e => e.playerId == p) = none) (s t : Int) :
    UpdateScore lb p s t =
      { players := (⟨p, s, t⟩ : PlayerEntry) :: lb.players,
        ranking := insertToRanking ⟨p, s, t⟩ lb.ranking } := by
  unfold UpdateScore
  rw [hfind]

theorem insertToRanking_length (e : PlayerEntry) (l : List PlayerEntry) :
    (insertToRanking e l).length = l.length + 1 := by
  simpa using (insertToRanking_perm e l).length_eq

theorem insertToRanking_get_insertPos (e : PlayerEntry) (l : List PlayerEntry) :
    (insertToRanking e l).get ⟨insertPos e l, by
      rw [insertToRanking_length]
      have := insertPos_le e l
      omega⟩ = e := by
  have hlen : (l.take (insertPos e l)).length = insertPos e l := by
    rw [List.length_take]
    have := insertPos_le e l
    omega
  rw [List.get_eq_getElem]
  simp only [insertToRanking]
  rw [List.getElem_append_right (le_of_eq hlen)]
  simp [hlen]

/-- The state one `UpdateScore p s t` call leaves behind: the new entry
inserted into a sorted remainder that holds no entry for `p`, the map's
entry for `p` being the new entry, and rewriting the map's `p` entry once
more being a no-op. -/
theorem updateScore_ranking_shape {lb : LeaderboardService} (h : Inv lb) (p : String)
    (s t : Int) :
    ∃ r₀ : List PlayerEntry,
      (∀ x ∈ r₀, x.playerId ≠ p) ∧ Sorted r₀ ∧
      (UpdateScore lb p s t).ranking = insertToRanking ⟨p, s, t⟩ r₀ ∧
      (UpdateScore lb p s t).players.find? (fun e => e.playerId == p) =
        some (⟨p, s, t⟩ : PlayerEntry) ∧
      (UpdateScore lb p s t).players.map
          (fun e => if e.playerId == p then (⟨p, s, t⟩ : PlayerEntry) else e) =
        (UpdateScore lb p s t).players := by
  cases hfind : lb.players.find? (fun e => e.playerId == p) with
  | none =>
    rw [updateScore_of_find_none hfind s t]
    have hnone : ∀ x ∈ lb.players, x.playerId ≠ p := fun x hx => by
      simpa using List.find?_eq_none.1 hfind x hx
    have hnoner : ∀ x ∈ lb.ranking, x.playerId ≠ p := fun x hx => hnone x (h.perm.mem_iff.2 hx)
    refine ⟨lb.ranking, hnoner, h.sorted, rfl, ?_, ?_⟩
    · dsimp only
      rw [List.find?_cons_of_pos _ (by simp)]
    · dsimp only
      rw [List.map_cons, if_pos (by simp),
        map_noop (fun x hx => if_neg (by simpa using hnone x hx))]
  | some old =>
    have hop : old.playerId = p := by simpa using List.find?_some hfind
    have hmem : old ∈ lb.players := List.mem_of_find?_eq_some hfind
    have hmemr : old ∈ lb.ranking := h.perm.mem_iff.1 hmem
    rw [updateScore_of_find_some hfind s t]
    have hrem : removeFromRanking old lb.ranking =
        lb.ranking.eraseP (fun e => e.playerId == p) := by
      unfold removeFromRanking; rw [hop]
    obtain ⟨a', r₁, r₂, hr1, hpa, hrq, hre⟩ :=
      List.exists_of_eraseP (p := fun e => e.playerId == p) hmemr (by simp [hop])
    have hap : a'.playerId = p := by simpa using hpa
    have hnopr : ∀ x ∈ lb.ranking.eraseP (fun e => e.playerId == p), x.playerId ≠ p := by
      rw [hre]
      have hnd := h.nodupIds
      rw [hrq, List.map_append, List.map_cons, List.nodup_middle, List.nodup_cons] at hnd
      intro x hx hxp
      exact hnd.1 (by rw [hap, ← hxp, ← List.map_append]; exact List.mem_map_of_mem _ hx)
    refine ⟨lb.ranking.eraseP (fun e => e.playerId == p), hnopr,
      List.Pairwise.sublist (List.eraseP_sublist _) h.sorted, by dsimp only; rw [hrem], ?_, ?_⟩
    · dsimp only
      rw [List.find?_map]
      have hcong : lb.players.find? ((fun e : PlayerEntry => e.playerId == p) ∘
          (fun e => if e.playerId == p then (⟨p, s, t⟩ : PlayerEntry) else e)) =
          lb.players.find? (fun e : PlayerEntry => e.playerId == p) := by
        apply congrArg (lb.players.find? ·)
        funext x
        by_cases hx : (x.playerId == p) = true
        · simp only [Function.comp, if_pos hx]
          simpa using hx.symm
        · simp only [Function.comp, if_neg hx]
      rw [hcong, hfind]
      simp [hop]
    · dsimp only
      rw [List.map_map]
      apply map_eq_of_forall
      intro x _
      by_cases hx : (x.playerId == p) = true
      · simp only [Function.comp, if_pos hx, ite_self]
      · simp only [Function.comp, if_neg hx, if_neg hx]

/-- Two consecutive `UpdateScore` calls with identical arguments leave
the service state of the first call unchanged. -/
theorem updateScore_twice {lb : LeaderboardService} (h : Inv lb) (p : String) (s t : Int) :
    UpdateScore (UpdateScore lb p s t) p s t = UpdateScore lb p s t := by
  obtain ⟨r₀, hr₀, hsr₀, hrk, hfind1, hmap1⟩ := updateScore_ranking_shape h p s t
  rw [updateScore_of_find_some hfind1 s t, hmap1]
  have hrem2 : removeFromRanking (⟨p, s, t⟩ : PlayerEntry)
      (insertToRanking ⟨p, s, t⟩ r₀) = r₀ := by
    unfold removeFromRanking insertToRanking
    rw [eraseP_append_none (fun x hx => by
      simpa using hr₀ x (List.mem_of_mem_take hx))]
    rw [List.eraseP_cons_of_pos (by simp)]
    exact List.take_append_drop _ _
  rw [hrk, hrem2, ← hrk]

/-! ### The identities known to the service are the updated identities -/

theorem updateScore_ids (lb : LeaderboardService) (p : String) (s t : Int) (q : String) :
    q ∈ (UpdateScore lb p s t).players.map PlayerEntry.playerId ↔
      q = p ∨ q ∈ lb.players.map PlayerEntry.playerId := by
  cases hfind : lb.players.find? (fun e => e.playerId == p) with
  | none =>
    rw [updateScore_of_find_none hfind s t]
    simp
  | some old =>
    have hop : old.playerId = p := by simpa using List.find?_some hfind
    have hmem : old.playerId ∈ lb.players.map PlayerEntry.playerId :=
      List.mem_map_of_mem _ (List.mem_of_find?_eq_some hfind)
    rw [updateScore_of_find_some hfind s t]
    have hkeep : (lb.players.map
        (fun e => if e.playerId == p then (⟨p, s, t⟩ : PlayerEntry) else e)).map
          PlayerEntry.playerId = lb.players.map PlayerEntry.playerId := by
      rw [List.map_map]
      apply map_eq_of_forall
      intro x _
      by_cases hx : (x.playerId == p) = true
      · simp only [Function.comp, if_pos hx]
        have : x.playerId = p := by simpa using hx
        exact this.symm
      · simp only [Function.comp, if_neg hx]
    dsimp only
    rw [hkeep]
    constructor
    · exact Or.inr
    · rintro (rfl | hq)
      · rw [← hop]; exact hmem
      · exact hq

theorem foldl_ids :
    ∀ (ups : List (String × Int × Int)) (lb : LeaderboardService) (q : String),
      q ∈ (ups.foldl (fun lb u => UpdateScore lb u.1 u.2.1 u.2.2) lb).players.map
          PlayerEntry.playerId ↔
        q ∈ ups.map Prod.fst ∨ q ∈ lb.players.map PlayerEntry.playerId
  | [], lb, q => by simp
  | u :: ups, lb, q => by
    rw [List.foldl_cons, foldl_ids ups _ q, updateScore_ids, List.map_cons, List.mem_cons]
    tauto

theorem applyUpdates_ids (ups : List (String × Int × Int)) (q : String) :
    q ∈ (applyUpdates ups).players.map PlayerEntry.playerId ↔ q ∈ ups.map Prod.fst := by
  rw [applyUpdates, foldl_ids]
  simp [NewLeaderboardService]

/-! ### C1: sort invariant -/

/-- **C1** Sort invariant: after every sequence of `UpdateScore` calls
starting from the empty index, every pair of adjacent positions `i`,
`i+1` of the ordered sequence satisfies `score[i] > score[i+1]`, or
`score[i] == score[i+1]` and `timestamp[i] <= timestamp[i+1]`. -/
theorem c1_sort_invariant (ups : List (String × Int × Int)) (i : Nat)
    (h : i + 1 < (applyUpdates ups).ranking.length) :
    ((applyUpdates ups).ranking.get ⟨i + 1, h⟩).score <
        ((applyUpdates ups).ranking.get ⟨i, by omega⟩).score ∨
      (((applyUpdates ups).ranking.get ⟨i, by omega⟩).score =
          ((applyUpdates ups).ranking.get ⟨i + 1, h⟩).score ∧
        ((applyUpdates ups).ranking.get ⟨i, by omega⟩).timestamp ≤
          ((applyUpdates ups).ranking.get ⟨i + 1, h⟩).timestamp) := by
  have := sorted_get_le (inv_applyUpdates ups).sorted i (i + 1) (by omega) h
  unfold leOrd at this
  exact this

/-- Witness for C1 on a concrete two-player history. -/
theorem c1_sort_invariant_witness :
    0 + 1 < (applyUpdates [("a", 2, 0), ("b", 1, 0)]).ranking.length ∧
      (((applyUpdates [("a", 2, 0), ("b", 1, 0)]).ranking.get ⟨0 + 1, by decide⟩).score <
          ((applyUpdates [("a", 2, 0), ("b", 1, 0)]).ranking.get ⟨0, by decide⟩).score ∨
        (((applyUpdates [("a", 2, 0), ("b", 1, 0)]).ranking.get ⟨0, by decide⟩).score =
            ((applyUpdates [("a", 2, 0), ("b", 1, 0)]).ranking.get ⟨0 + 1, by decide⟩).score ∧
          ((applyUpdates [("a", 2, 0), ("b", 1, 0)]).ranking.get ⟨0, by decide⟩).timestamp ≤
            ((applyUpdates [("a", 2, 0), ("b", 1, 0)]).ranking.get ⟨0 + 1, by decide⟩).timestamp)) :=
  ⟨by decide, c1_sort_invariant [("a", 2, 0), ("b", 1, 0)] 0 (by decide)⟩

/-! ### C3: idempotent re-update -/

/-- **C3** Idempotent re-update: from any reachable state, calling
`UpdateScore(p, s, t)` twice with identical arguments leaves every
player's reported rank and score, and the population size of both views,
exactly as after the first call. -/
theorem c3_idempotent_reupdate (ups : List (String × Int × Int)) (p : String) (s t : Int) :
    (∀ q, GetPlayerRank (UpdateScore (UpdateScore (applyUpdates ups) p s t) p s t) q =
        GetPlayerRank (UpdateScore (applyUpdates ups) p s t) q) ∧
      (UpdateScore (UpdateScore (applyUpdates ups) p s t) p s t).ranking.length =
        (UpdateScore (applyUpdates ups) p s t).ranking.length ∧
      (UpdateScore (UpdateScore (applyUpdates ups) p s t) p s t).players.length =
        (UpdateScore (applyUpdates ups) p s t).players.length := by
  rw [updateScore_twice (inv_applyUpdates ups) p s t]
  exact ⟨fun q => rfl, rfl, rfl⟩

/-! ### C8: population consistency -/

/-- **C8** Population consistency: after every sequence of `UpdateScore`
calls, the ordered sequence and the lookup map have the same size, that
size is the number of distinct playerIds ever updated, and no entry
occurs twice in the ordered sequence. -/
theorem c8_population_consistency (ups : List (String × Int × Int)) :
    (applyUpdates ups).ranking.length = (applyUpdates ups).players.length ∧
      (applyUpdates ups).players.length = (ups.map Prod.fst).dedup.length ∧
      ((applyUpdates ups).ranking.map PlayerEntry.playerId).Nodup ∧
      (applyUpdates ups).ranking.Nodup := by
  have h := inv_applyUpdates ups
  have hndp := nodup_ids_players h
  refine ⟨h.perm.length_eq.symm, ?_, h.nodupIds, h.nodupIds.of_map⟩
  have hfs : ((applyUpdates ups).players.map PlayerEntry.playerId).toFinset =
      (ups.map Prod.fst).toFinset := by
    ext q
    rw [List.mem_toFinset, List.mem_toFinset]
    exact applyUpdates_ids ups q
  have h1 : (applyUpdates ups).players.length =
      ((applyUpdates ups).players.map PlayerEntry.playerId).length :=
    (List.length_map _ _).symm
  rw [h1, ← List.toFinset_card_of_nodup hndp, hfs, List.card_toFinset]

/-! ### C9: ties on equal score and timestamp insert after their equals -/

/-- **C9** When an entry with the same score and timestamp as an
existing element of a sorted ranking is inserted, the chosen insertion
index lies strictly after every such equal element, and the entry indeed
lands at that index. -/
theorem c9_tie_insert_after_equals {l : List PlayerEntry} (e : PlayerEntry) (hs : Sorted l)
    (k : Nat) (hk : k < l.length)
    (hsc : (l.get ⟨k, hk⟩).score = e.score) (hts : (l.get ⟨k, hk⟩).timestamp = e.timestamp) :
    k < insertPos e l ∧
      (insertToRanking e l).get ⟨insertPos e l, by
        rw [insertToRanking_length]
        have := insertPos_le e l
        omega⟩ = e := by
  refine ⟨?_, insertToRanking_get_insertPos e l⟩
  by_contra hc
  push_neg at hc
  exact not_leOrd_of_insertPos_le hs hc hk (Or.inr ⟨hsc, le_of_eq hts⟩)

/-- Witness for C9: inserting `("b", 5, 7)` next to the equal-keyed
`("a", 5, 7)` places it strictly after. -/
theorem c9_tie_insert_after_equals_witness :
    Sorted [(⟨"a", 5, 7⟩ : PlayerEntry)] ∧
      (0 : Nat) < 1 ∧
      (([(⟨"a", 5, 7⟩ : PlayerEntry)].get ⟨0, by decide⟩).score = (5 : Int)) ∧
      (0 < insertPos ⟨"b", 5, 7⟩ [⟨"a", 5, 7⟩] ∧
        (insertToRanking (⟨"b", 5, 7⟩ : PlayerEntry) [⟨"a", 5, 7⟩]).get
          ⟨insertPos ⟨"b", 5, 7⟩ [⟨"a", 5, 7⟩], by decide⟩ = ⟨"b", 5, 7⟩) :=
  ⟨by decide, by decide, by decide,
    c9_tie_insert_after_equals ⟨"b", 5, 7⟩ (by decide) 0 (by decide) (by decide) (by decide)⟩

/-! ### C7: unknown player signalling -/

/-- **C7** Unknown player: a playerId never passed to `UpdateScore` makes
`GetPlayerRank`, `GetPlayerRankRange` and `GetPlayerDenseRankRange` signal
"not found"; a playerId updated at least once never signals "not found". -/
theorem c7_unknown_player (ups : List (String × Int × Int)) (p : String) :
    (p ∉ ups.map Prod.fst →
        GetPlayerRank (applyUpdates ups) p = none ∧
        (∀ rng : Int, GetPlayerRankRange (applyUpdates ups) p rng = RangeResult.notFound) ∧
        (∀ rng : Int, GetPlayerDenseRankRange (applyUpdates ups) p rng =
          RangeResult.notFound)) ∧
    (p ∈ ups.map Prod.fst →
        GetPlayerRank (applyUpdates ups) p ≠ none ∧
        (∀ rng : Int, GetPlayerRankRange (applyUpdates ups) p rng ≠ RangeResult.notFound) ∧
        (∀ rng : Int, GetPlayerDenseRankRange (applyUpdates ups) p rng ≠
          RangeResult.notFound)) := by
  constructor
  · intro hout
    have hnone : (applyUpdates ups).players.find? (fun e => e.playerId == p) = none := by
      rw [List.find?_eq_none]
      intro x hx hxp
      apply hout
      apply (applyUpdates_ids ups p).1
      have hxeq : x.playerId = p := by simpa using hxp
      rw [← hxeq]
      exact List.mem_map_of_mem _ hx
    refine ⟨?_, fun rng => ?_, fun rng => ?_⟩
    · unfold GetPlayerRank; rw [hnone]
    · unfold GetPlayerRankRange; rw [hnone]
    · unfold GetPlayerDenseRankRange; rw [hnone]
  · intro hin
    have hmem : p ∈ (applyUpdates ups).players.map PlayerEntry.playerId :=
      (applyUpdates_ids ups p).2 hin
    obtain ⟨x, hx, hxp⟩ := List.mem_map.1 hmem
    have hsome : ((applyUpdates ups).players.find? (fun e => e.playerId == p)).isSome := by
      rw [List.find?_isSome]
      exact ⟨x, hx, by simp [hxp]⟩
    obtain ⟨entry, hfind⟩ := Option.isSome_iff_exists.1 hsome
    refine ⟨?_, fun rng => ?_, fun rng => ?_⟩
    · unfold GetPlayerRank; rw [hfind]; simp
    · unfold GetPlayerRankRange; rw [hfind]; dsimp only
      repeat' split
      all_goals simp
    · unfold GetPlayerDenseRankRange; rw [hfind]; dsimp only
      repeat' split
      all_goals simp

/-- Witness for C7: one updated player, one never-updated identity. -/
theorem c7_unknown_player_witness :
    GetPlayerRank (applyUpdates [("a", 1, 1)]) "zz" = none ∧
      GetPlayerRankRange (applyUpdates [("a", 1, 1)]) "zz" 1 = RangeResult.notFound ∧
      GetPlayerRank (applyUpdates [("a", 1, 1)]) "a" ≠ none ∧
      GetPlayerDenseRankRange (applyUpdates [("a", 1, 1)]) "a" 1 ≠ RangeResult.notFound :=
  ⟨((c7_unknown_player [("a", 1, 1)] "zz").1 (by decide)).1,
    ((c7_unknown_player [("a", 1, 1)] "zz").1 (by decide)).2.1 1,
    ((c7_unknown_player [("a", 1, 1)] "a").2 (by decide)).1,
    ((c7_unknown_player [("a", 1, 1)] "a").2 (by decide)).2.2 1⟩

/-! ### The window-collection loop in closed form -/

theorem sliceLoopAux_eq (ranking : List PlayerEntry) :
    ∀ (fuel : Nat) (i stop : Int), 0 ≤ i → (stop + 1 - i).toNat ≤ fuel →
      sliceLoopAux ranking fuel i stop =
        (List.range' i.toNat (stop + 1 - i).toNat).map
          (fun k => toRankInfo (ranking.getD k ⟨"", 0, 0⟩) ((k : Int) + 1)) := by
  intro fuel
  induction fuel with
  | zero =>
    intro i stop h0 hf
    have : (stop + 1 - i).toNat = 0 := by omega
    rw [this]
    rfl
  | succ fuel ih =>
    intro i stop h0 hf
    unfold sliceLoopAux
    split
    · rename_i hle
      have hcnt : (stop + 1 - i).toNat = (stop + 1 - (i + 1)).toNat + 1 := by omega
      rw [hcnt, List.range'_succ, List.map_cons]
      have hiNat : ((i.toNat : Int)) = i := Int.toNat_of_nonneg h0
      have hsucc : i.toNat + 1 = (i + 1).toNat := by omega
      rw [ih (i + 1) stop (by omega) (by omega), hiNat, hsucc]
    · rename_i hgt
      have : (stop + 1 - i).toNat = 0 := by omega
      rw [this]
      rfl

theorem sliceLoop_eq (ranking : List PlayerEntry) (start stop : Int) (h0 : 0 ≤ start) :
    sliceLoop ranking start stop =
      (List.range' start.toNat (stop + 1 - start).toNat).map
        (fun k => toRankInfo (ranking.getD k ⟨"", 0, 0⟩) ((k : Int) + 1)) :=
  sliceLoopAux_eq ranking _ start stop h0 (le_refl _)

/-! ### Locating a player's position -/

theorem id_inj_of_nodup {l : List PlayerEntry} (hnd : (l.map PlayerEntry.playerId).Nodup)
    {k1 k2 : Nat} (h1 : k1 < l.length) (h2 : k2 < l.length)
    (heq : (l.get ⟨k1, h1⟩).playerId = (l.get ⟨k2, h2⟩).playerId) : k1 = k2 := by
  have hinj := List.nodup_iff_injective_get.1 hnd
  have hlen : (l.map PlayerEntry.playerId).length = l.length := List.length_map _ _
  have e1 : (l.map PlayerEntry.playerId).get ⟨k1, by omega⟩ = (l.get ⟨k1, h1⟩).playerId :=
    List.get_map _
  have e2 : (l.map PlayerEntry.playerId).get ⟨k2, by omega⟩ = (l.get ⟨k2, h2⟩).playerId :=
    List.get_map _
  have := @hinj ⟨k1, by omega⟩ ⟨k2, by omega⟩ (by rw [e1, e2, heq])
  simpa using congrArg Fin.val this

theorem findIdx_eq_of_nodup :
    ∀ {l : List PlayerEntry}, (l.map PlayerEntry.playerId).Nodup →
      ∀ {pos : Nat} (hpos : pos < l.length) {p : String},
        (l.get ⟨pos, hpos⟩).playerId = p →
        l.findIdx? (fun e => e.playerId == p) = some pos := by
  intro l
  induction l with
  | nil => intro _ pos hpos; simp at hpos
  | cons a l ih =>
    intro hnd pos hpos p hid
    rw [List.map_cons, List.nodup_cons] at hnd
    cases pos with
    | zero =>
      rw [List.findIdx?_cons, if_pos (by simpa using hid)]
    | succ k =>
      have hklen : k < l.length := by simpa using hpos
      have hkid : (l.get ⟨k, hklen⟩).playerId = p := hid
      have hane : ¬ (a.playerId == p) = true := by
        simp only [beq_iff_eq]
        intro hap
        exact hnd.1 (by rw [hap, ← hkid]; exact List.mem_map_of_mem _ (l.get_mem _ _))
      rw [List.findIdx?_cons, if_neg hane, List.findIdx?_succ, ih hnd.2 hklen hkid]
      rfl

theorem players_find_of_ranking {lb : LeaderboardService} (h : Inv lb) {pos : Nat}
    (hpos : pos < lb.ranking.length) {p : String}
    (hid : (lb.ranking.get ⟨pos, hpos⟩).playerId = p) :
    ∃ entry, lb.players.find? (fun e => e.playerId == p) = some entry ∧
      entry.playerId = p := by
  have hmem : lb.ranking.get ⟨pos, hpos⟩ ∈ lb.players :=
    h.perm.mem_iff.2 (lb.ranking.get_mem _ _)
  have hsome : (lb.players.find? (fun e => e.playerId == p)).isSome := by
    rw [List.find?_isSome]
    refine ⟨_, hmem, ?_⟩
    simp only [beq_iff_eq]
    exact hid
  obtain ⟨entry, hfind⟩ := Option.isSome_iff_exists.1 hsome
  exact ⟨entry, hfind, by simpa using List.find?_some hfind⟩

theorem findRank_eq_pos {lb : LeaderboardService} (h : Inv lb) {pos : Nat}
    (hpos : pos < lb.ranking.length) {p : String}
    (hid : (lb.ranking.get ⟨pos, hpos⟩).playerId = p)
    {entry : PlayerEntry} (hep : entry.playerId = p) :
    findRank entry lb.ranking = (pos : Int) := by
  unfold findRank
  rw [hep, findIdx_eq_of_nodup h.nodupIds hpos hid]

/-! ### C4: GetTopN -/

/-- C4 as stated is false: `GetTopN` with a negative `n` reaches Go's
`make([]model.RankInfo, 0, n)` with a negative capacity, a run-time
panic, instead of returning an empty slice. -/
theorem c4_counterexample :
    GetTopN (applyUpdates []) (-1) = TopResult.panicked ∧ ((-1 : Int) ≤ 0) := by
  exact ⟨by decide, by decide⟩

/-- **C4** (amended: `n ≥ 0`; negative `n` panics, see the
counterexample): for every reachable state and every `n ≥ 0`, `GetTopN`
returns (without error) exactly the first `min n (population)` entries of
the ordered sequence, the entry at position `i` carrying standard rank
`i + 1`; in particular `n = 0` yields an empty result. -/
theorem c4_get_top_n (ups : List (String × Int × Int)) (n : Int) (hn : 0 ≤ n) :
    ∃ l, GetTopN (applyUpdates ups) n = TopResult.ok l ∧
      l.length = min n.toNat (applyUpdates ups).ranking.length ∧
      ∀ i (hi : i < l.length) (hi' : i < (applyUpdates ups).ranking.length),
        l.get ⟨i, hi⟩ = toRankInfo ((applyUpdates ups).ranking.get ⟨i, hi'⟩)
          ((i : Int) + 1) := by
  unfold GetTopN
  rw [if_neg (by omega)]
  refine ⟨_, rfl, ?_, ?_⟩
  · rw [List.length_map, List.enum_length, List.length_take]
  · intro i hi hi'
    rw [List.length_map, List.enum_length, List.length_take] at hi
    simp only [List.get_eq_getElem, List.getElem_map, List.enum_eq_enumFrom,
      List.getElem_enumFrom, List.getElem_take, Nat.zero_add]

/-- Witness for C4 on a concrete history and `n = 2`. -/
theorem c4_get_top_n_witness :
    (0 : Int) ≤ 2 ∧
      (∃ l, GetTopN (applyUpdates [("a", 5, 1)]) 2 = TopResult.ok l ∧
        l.length = min (2 : Int).toNat (applyUpdates [("a", 5, 1)]).ranking.length ∧
        ∀ i (hi : i < l.length) (hi' : i < (applyUpdates [("a", 5, 1)]).ranking.length),
          l.get ⟨i, hi⟩ = toRankInfo ((applyUpdates [("a", 5, 1)]).ranking.get ⟨i, hi'⟩)
            ((i : Int) + 1)) :=
  ⟨by decide, c4_get_top_n [("a", 5, 1)] 2 (by decide)⟩

/-! ### C5: GetPlayerRankRange -/

theorem wrap64_eq_self {x : Int} (h1 : -9223372036854775808 ≤ x)
    (h2 : x < 9223372036854775808) : wrap64 x = x := by
  unfold wrap64
  omega

/-- C5 as stated is false: for a known player the `make` capacity
`end - start + 1` goes negative both for a negative `rng` and for a
wrap-inducing large `rng` (at position 1, `rank + rng` overflows for
`rng = 2^63 - 1`), and Go panics at run time in both cases. -/
theorem c5_counterexample :
    GetPlayerRankRange (applyUpdates [("a", 1, 1)]) "a" (-1) = RangeResult.panicked ∧
      (0 : Int) ≤ 9223372036854775807 ∧
      GetPlayerRankRange (applyUpdates [("a", 5, 1), ("b", 4, 2)]) "b" 9223372036854775807 =
        RangeResult.panicked := by
  exact ⟨by decide, by decide, by decide⟩

/-- The window query in closed form: for a known player at sorted
position `pos`, a population below `2^63` (a Go slice length always
is), and an `rng ≥ 0` for which `pos + rng` does not overflow, no
arithmetic wraps and the result lists exactly the clipped window of
positions. -/
theorem getPlayerRankRange_closed {ups : List (String × Int × Int)} {p : String} {rng : Int}
    (hrng : 0 ≤ rng)
    (hlen : ((applyUpdates ups).ranking.length : Int) < 9223372036854775808)
    {pos : Nat} (hpr : (pos : Int) + rng < 9223372036854775808)
    (hpos : pos < (applyUpdates ups).ranking.length)
    (hid : ((applyUpdates ups).ranking.get ⟨pos, hpos⟩).playerId = p) :
    GetPlayerRankRange (applyUpdates ups) p rng = RangeResult.found
      ((List.range' (max 0 ((pos : Int) - rng)).toNat
          (min (((applyUpdates ups).ranking.length : Int) - 1) ((pos : Int) + rng) + 1 -
            max 0 ((pos : Int) - rng)).toNat).map
        (fun k => toRankInfo ((applyUpdates ups).ranking.getD k ⟨"", 0, 0⟩)
          ((k : Int) + 1))) := by
  obtain ⟨entry, hfind, hep⟩ := players_find_of_ranking (inv_applyUpdates ups) hpos hid
  have hrank : findRank entry (applyUpdates ups).ranking = (pos : Int) :=
    findRank_eq_pos (inv_applyUpdates ups) hpos hid hep
  unfold GetPlayerRankRange
  rw [hfind]
  dsimp only
  rw [hrank]
  have hw1 : wrap64 ((pos : Int) - rng) = (pos : Int) - rng :=
    wrap64_eq_self (by omega) (by omega)
  have hw2 : wrap64 ((pos : Int) + rng) = (pos : Int) + rng :=
    wrap64_eq_self (by omega) (by omega)
  rw [hw1, hw2]
  have hstart : (if (pos : Int) - rng < 0 then 0 else (pos : Int) - rng) =
      max 0 ((pos : Int) - rng) := by
    split
    · exact (max_eq_left (by omega)).symm
    · exact (max_eq_right (by omega)).symm
  have hstop : (if ((applyUpdates ups).ranking.length : Int) ≤ (pos : Int) + rng then
        ((applyUpdates ups).ranking.length : Int) - 1 else (pos : Int) + rng) =
      min (((applyUpdates ups).ranking.length : Int) - 1) ((pos : Int) + rng) := by
    split
    · exact (min_eq_left (by omega)).symm
    · exact (min_eq_right (by omega)).symm
  rw [hstart, hstop]
  have h0 : (0 : Int) ≤ max 0 ((pos : Int) - rng) := le_max_left _ _
  have h2 : max 0 ((pos : Int) - rng) ≤ (pos : Int) := max_le (by omega) (by omega)
  have h3 : (pos : Int) ≤ min (((applyUpdates ups).ranking.length : Int) - 1)
      ((pos : Int) + rng) := le_min (by omega) (by omega)
  have h4 : min (((applyUpdates ups).ranking.length : Int) - 1) ((pos : Int) + rng) ≤
      ((applyUpdates ups).ranking.length : Int) - 1 := min_le_left _ _
  have hw3 : wrap64 (min (((applyUpdates ups).ranking.length : Int) - 1) ((pos : Int) + rng) -
      max 0 ((pos : Int) - rng)) =
      min (((applyUpdates ups).ranking.length : Int) - 1) ((pos : Int) + rng) -
        max 0 ((pos : Int) - rng) :=
    wrap64_eq_self (by omega) (by omega)
  rw [hw3]
  have hw4 : wrap64 (min (((applyUpdates ups).ranking.length : Int) - 1) ((pos : Int) + rng) -
      max 0 ((pos : Int) - rng) + 1) =
      min (((applyUpdates ups).ranking.length : Int) - 1) ((pos : Int) + rng) -
        max 0 ((pos : Int) - rng) + 1 :=
    wrap64_eq_self (by omega) (by omega)
  rw [hw4]
  rw [if_neg (by omega), sliceLoop_eq _ _ _ h0]

/-- **C5** (amended: `rng ≥ 0` and no 64-bit overflow of `pos + rng`;
negative and wrap-inducing `rng` both panic, see the counterexample):
for every reachable state whose population fits a Go slice length,
known player at 0-based position `pos`, and `rng ≥ 0` with
`pos + rng < 2^63`, `GetPlayerRankRange` succeeds and returns exactly
the entries at positions `max 0 (pos-rng)` through
`min (size-1) (pos+rng)` inclusive, each tagged with standard rank
`position + 1`; the window is clipped silently at the population
bounds. -/
theorem c5_player_rank_range (ups : List (String × Int × Int)) (p : String) (rng : Int)
    (hrng : 0 ≤ rng)
    (hlen : ((applyUpdates ups).ranking.length : Int) < 9223372036854775808)
    (pos : Nat) (hpr : (pos : Int) + rng < 9223372036854775808)
    (hpos : pos < (applyUpdates ups).ranking.length)
    (hid : ((applyUpdates ups).ranking.get ⟨pos, hpos⟩).playerId = p) :
    ∃ l, GetPlayerRankRange (applyUpdates ups) p rng = RangeResult.found l ∧
      l.length = (min (((applyUpdates ups).ranking.length : Int) - 1) ((pos : Int) + rng) -
          max 0 ((pos : Int) - rng) + 1).toNat ∧
      ∀ j (hj : j < l.length)
        (hk : (max 0 ((pos : Int) - rng)).toNat + j < (applyUpdates ups).ranking.length),
        l.get ⟨j, hj⟩ = toRankInfo
          ((applyUpdates ups).ranking.get ⟨(max 0 ((pos : Int) - rng)).toNat + j, hk⟩)
          ((((max 0 ((pos : Int) - rng)).toNat + j : Nat) : Int) + 1) := by
  rw [getPlayerRankRange_closed hrng hlen hpr hpos hid]
  refine ⟨_, rfl, ?_, ?_⟩
  · rw [List.length_map, List.length_range']
    omega
  · intro j hj hk
    rw [List.length_map, List.length_range'] at hj
    simp only [List.get_eq_getElem, List.getElem_map, List.getElem_range'_1]
    rw [List.getD_eq_getElem _ _ (by omega : (max 0 ((pos : Int) - rng)).toNat + j <
      (applyUpdates ups).ranking.length)]

/-- Witness for C5: two players, `rng = 1` around the lower-ranked one. -/
theorem c5_player_rank_range_witness :
    (0 : Int) ≤ 1 ∧
      ((applyUpdates [("a", 5, 1), ("b", 4, 2)]).ranking.length : Int) <
        9223372036854775808 ∧
      (1 : Int) + 1 < 9223372036854775808 ∧
      1 < (applyUpdates [("a", 5, 1), ("b", 4, 2)]).ranking.length ∧
      (∃ l, GetPlayerRankRange (applyUpdates [("a", 5, 1), ("b", 4, 2)]) "b" 1 =
          RangeResult.found l ∧
        l.length = (min (((applyUpdates [("a", 5, 1), ("b", 4, 2)]).ranking.length : Int) - 1)
            ((1 : Int) + 1) - max 0 ((1 : Int) - 1) + 1).toNat ∧
        ∀ j (hj : j < l.length)
          (hk : (max 0 ((1 : Int) - 1)).toNat + j <
            (applyUpdates [("a", 5, 1), ("b", 4, 2)]).ranking.length),
          l.get ⟨j, hj⟩ = toRankInfo
            ((applyUpdates [("a", 5, 1), ("b", 4, 2)]).ranking.get
              ⟨(max 0 ((1 : Int) - 1)).toNat + j, hk⟩)
            ((((max 0 ((1 : Int) - 1)).toNat + j : Nat) : Int) + 1)) :=
  ⟨by decide, by decide, by decide, by decide,
    c5_player_rank_range [("a", 5, 1), ("b", 4, 2)] "b" 1 (by decide) (by decide) 1
      (by decide) (by decide) (by decide)⟩

/-! ### Dense-rank bookkeeping -/

theorem denseAux_fst :
    ∀ (l : List PlayerEntry) (rk ps : Int) (b : Bool), (denseAux rk ps b l).map Prod.fst = l
  | [], _, _, _ => rfl
  | e :: rest, rk, ps, b => by
    unfold denseAux
    split
    · rw [List.map_cons, denseAux_fst]
    · rw [List.map_cons, denseAux_fst]

theorem denseAux_length (l : List PlayerEntry) (rk ps : Int) (b : Bool) :
    (denseAux rk ps b l).length = l.length := by
  have h := congrArg List.length (denseAux_fst l rk ps b)
  simpa using h

theorem denseAnnotate_length (l : List PlayerEntry) : (denseAnnotate l).length = l.length :=
  denseAux_length l 1 (-1) true

theorem denseRanks_length (l : List PlayerEntry) : (denseRanks l).length = l.length := by
  rw [denseRanks, List.length_map, denseAnnotate_length]

theorem denseAnnotate_get (l : List PlayerEntry) (i : Nat) (hi : i < l.length)
    (hi' : i < (denseAnnotate l).length) (hi'' : i < (denseRanks l).length) :
    (denseAnnotate l).get ⟨i, hi'⟩ =
      (l.get ⟨i, hi⟩, (denseRanks l).get ⟨i, hi''⟩) := by
  have hfst : ((denseAnnotate l).get ⟨i, hi'⟩).1 = l.get ⟨i, hi⟩ := by
    have h2 : ((denseAnnotate l).map Prod.fst).get
        ⟨i, by rw [List.length_map]; exact hi'⟩ =
        ((denseAnnotate l).get ⟨i, hi'⟩).1 := List.get_map _
    rw [← h2]
    have h := denseAux_fst l 1 (-1) true
    exact List.get_of_eq h _
  have hsnd : ((denseAnnotate l).get ⟨i, hi'⟩).2 = (denseRanks l).get ⟨i, hi''⟩ := by
    unfold denseRanks
    simp only [List.get_eq_getElem, List.getElem_map]
  exact Prod.ext hfst hsnd

theorem find?_eq_get_of_out {α : Type} (q : α → Bool) :
    ∀ (l : List α) (pos : Nat) (hpos : pos < l.length),
      (∀ j (hj : j < l.length), j ≠ pos → q (l.get ⟨j, hj⟩) = false) →
      q (l.get ⟨pos, hpos⟩) = true →
      l.find? q = some (l.get ⟨pos, hpos⟩) := by
  intro l
  induction l with
  | nil => intro pos hpos; simp at hpos
  | cons a l ih =>
    intro pos hpos hout hin
    cases pos with
    | zero => exact List.find?_cons_of_pos _ hin
    | succ k =>
      have ha : q a = false := hout 0 (by simp) (by omega)
      rw [List.find?_cons_of_neg _ (by simp [ha])]
      exact ih k (by simpa using hpos)
        (fun j hj hne => hout (j + 1) (by simpa using hj) (by omega)) hin

theorem countP_eq_one {α : Type} (q : α → Bool) :
    ∀ {l : List α}, l.Nodup → ∀ a ∈ l, q a = true → (∀ b ∈ l, b ≠ a → q b = false) →
      l.countP q = 1 := by
  intro l
  induction l with
  | nil => intro _ a ha; simp at ha
  | cons c l ih =>
    intro hnd a ha hqa hout
    rw [List.nodup_cons] at hnd
    rcases List.mem_cons.1 ha with rfl | hal
    · rw [List.countP_cons_of_pos _ _ hqa, List.countP_eq_zero.2, Nat.zero_add]
      intro b hb
      rw [hout b (List.mem_cons_of_mem _ hb) (fun hba => hnd.1 (hba ▸ hb))]
      simp
    · rw [List.countP_cons_of_neg _ _ (by
        rw [hout c (List.mem_cons_self _ _) (fun hca => hnd.1 (hca ▸ hal))]
        simp)]
      exact ih hnd.2 a hal hqa (fun b hb hba => hout b (List.mem_cons_of_mem _ hb) hba)


/-! ### The dense-rank loop: head value and step recurrence -/

theorem denseAux_cons_first (rk ps : Int) (e : PlayerEntry) (rest : List PlayerEntry) :
    denseAux rk ps true (e :: rest) = (e, rk) :: denseAux rk e.score false rest := by
  simp [denseAux]

theorem denseAux_cons_false (rk ps : Int) (e : PlayerEntry) (rest : List PlayerEntry) :
    denseAux rk ps false (e :: rest) =
      (e, if e.score = ps then rk else rk + 1) ::
        denseAux (if e.score = ps then rk else rk + 1) e.score false rest := by
  by_cases h : e.score = ps
  · simp [denseAux, h]
  · simp [denseAux, h]

/-- The sequence of dense ranks produced by the loop after its first
iteration, written as a bare recursion so that the recurrence proofs can
proceed by plain structural steps. -/
def refRanksAux (rk prevScore : Int) : List PlayerEntry → List Int
  | [] => []
  | e :: rest =>
    (if e.score = prevScore then rk else rk + 1) ::
      refRanksAux (if e.score = prevScore then rk else rk + 1) e.score rest

theorem denseAux_snd_eq :
    ∀ (l : List PlayerEntry) (rk ps : Int),
      (denseAux rk ps false l).map Prod.snd = refRanksAux rk ps l
  | [], _, _ => rfl
  | e :: rest, rk, ps => by
    rw [denseAux_cons_false, List.map_cons, denseAux_snd_eq rest]
    rfl

theorem denseRanks_cons (e : PlayerEntry) (rest : List PlayerEntry) :
    denseRanks (e :: rest) = 1 :: refRanksAux 1 e.score rest := by
  unfold denseRanks denseAnnotate
  rw [denseAux_cons_first, List.map_cons, denseAux_snd_eq]

theorem refRanksAux_length :
    ∀ (l : List PlayerEntry) (rk ps : Int), (refRanksAux rk ps l).length = l.length
  | [], _, _ => rfl
  | e :: rest, rk, ps => by
    rw [refRanksAux, List.length_cons, List.length_cons, refRanksAux_length rest]

theorem refRanksAux_get_step :
    ∀ (l : List PlayerEntry) (rk ps : Int) (i : Nat) (h1 : i + 1 < l.length)
      (h2 : i + 1 < (refRanksAux rk ps l).length) (h3 : i < (refRanksAux rk ps l).length),
      (refRanksAux rk ps l).get ⟨i + 1, h2⟩ =
        (refRanksAux rk ps l).get ⟨i, h3⟩ +
          (if (l.get ⟨i + 1, h1⟩).score = (l.get ⟨i, by omega⟩).score then 0 else 1) := by
  intro l
  induction l with
  | nil => intro rk ps i h1; simp at h1
  | cons e rest ih =>
    intro rk ps i h1 h2 h3
    cases i with
    | zero =>
      cases rest with
      | nil => simp at h1
      | cons e2 rest2 =>
        by_cases hsc : e2.score = e.score
        · simp [refRanksAux, hsc]
        · simp [refRanksAux, hsc]
    | succ k =>
      have hk1 : k + 1 < rest.length := by simpa using h1
      have hk2 : k + 1 < (refRanksAux (if e.score = ps then rk else rk + 1) e.score
          rest).length := by rw [refRanksAux_length]; exact hk1
      have hk3 : k < (refRanksAux (if e.score = ps then rk else rk + 1) e.score
          rest).length := by rw [refRanksAux_length]; omega
      have := ih (if e.score = ps then rk else rk + 1) e.score k hk1 hk2 hk3
      exact this

theorem denseRanks_get_zero (e : PlayerEntry) (rest : List PlayerEntry)
    (h : 0 < (denseRanks (e :: rest)).length) :
    (denseRanks (e :: rest)).get ⟨0, h⟩ = 1 := by
  rw [List.get_of_eq (denseRanks_cons e rest)]
  rfl

theorem denseRanks_get_step (l : List PlayerEntry) (i : Nat) (h1 : i + 1 < l.length)
    (h2 : i + 1 < (denseRanks l).length) (h3 : i < (denseRanks l).length) :
    (denseRanks l).get ⟨i + 1, h2⟩ =
      (denseRanks l).get ⟨i, h3⟩ +
        (if (l.get ⟨i + 1, h1⟩).score = (l.get ⟨i, by omega⟩).score then 0 else 1) := by
  cases l with
  | nil => simp at h1
  | cons e rest =>
    rw [List.get_of_eq (denseRanks_cons e rest), List.get_of_eq (denseRanks_cons e rest)]
    cases i with
    | zero =>
      cases rest with
      | nil => simp at h1
      | cons e2 rest2 =>
        by_cases hsc : e2.score = e.score
        · simp [refRanksAux, hsc]
        · simp [refRanksAux, hsc]
    | succ k =>
      have hlen : (denseRanks (e :: rest)).length = rest.length + 1 := by
        rw [denseRanks_length]
        rfl
      have hk1 : k + 1 < rest.length := by simpa using h1
      have hk2 : k + 1 < (refRanksAux 1 e.score rest).length := by
        rw [refRanksAux_length]; exact hk1
      have hk3 : k < (refRanksAux 1 e.score rest).length := by
        rw [refRanksAux_length]; omega
      have hstep := refRanksAux_get_step rest 1 e.score k hk1 hk2 hk3
      exact hstep

/-! ### The reference dense rank satisfies the same recurrence on sorted lists -/

theorem take_map_score_toFinset_succ (l : List PlayerEntry) (k : Nat) (hk : k < l.length) :
    ((l.take (k + 1)).map PlayerEntry.score).toFinset =
      insert ((l.get ⟨k, hk⟩).score) ((l.take k).map PlayerEntry.score).toFinset := by
  rw [List.take_succ, List.getElem?_eq_getElem hk]
  simp only [Option.toList_some, List.map_append, List.map_cons, List.map_nil,
    List.toFinset_append]
  simp [Finset.insert_eq, Finset.union_comm, List.get_eq_getElem]

theorem sorted_take_score_le (l : List PlayerEntry) (hs : Sorted l) (k : Nat)
    (hk : k < l.length) :
    ∀ x ∈ ((l.take k).map PlayerEntry.score).toFinset, (l.get ⟨k, hk⟩).score ≤ x := by
  intro x hx
  rw [List.mem_toFinset] at hx
  obtain ⟨y, hy, hyx⟩ := List.mem_map.1 hx
  obtain ⟨j, hj, hjk, hjy⟩ := mem_take_idx hy
  have := sorted_get_le hs j k (by omega) hk
  rw [hjy] at this
  unfold leOrd at this
  omega

theorem denseRankRef_toFinset (prev : List Int) (s : Int) :
    denseRankRef prev s = 1 + ((prev.toFinset.filter (fun x => s < x)).card : Int) := by
  rw [denseRankRef]
  have h : (prev.filter (fun x => decide (s < x))).dedup.length =
      (prev.toFinset.filter (fun x => s < x)).card := by
    rw [← List.card_toFinset]
    congr 1
    ext x
    simp
  rw [h]

theorem denseRankRef_step (l : List PlayerEntry) (hs : Sorted l) (k : Nat)
    (h1 : k + 1 < l.length) :
    denseRankRef ((l.take (k + 1)).map PlayerEntry.score) ((l.get ⟨k + 1, h1⟩).score) =
      denseRankRef ((l.take k).map PlayerEntry.score) ((l.get ⟨k, by omega⟩).score) +
        (if (l.get ⟨k + 1, h1⟩).score = (l.get ⟨k, by omega⟩).score then 0 else 1) := by
  have hk : k < l.length := by omega
  have hadj := sorted_get_le hs k (k + 1) (by omega) h1
  rw [denseRankRef_toFinset, denseRankRef_toFinset,
    take_map_score_toFinset_succ l k hk]
  set s0 : Int := (l.get ⟨k, hk⟩).score with hs0
  set s1 : Int := (l.get ⟨k + 1, h1⟩).score with hs1
  set T : Finset Int := ((l.take k).map PlayerEntry.score).toFinset with hT
  have hTle : ∀ x ∈ T, s0 ≤ x := sorted_take_score_le l hs k hk
  by_cases hsc : s1 = s0
  · rw [if_pos hsc, hsc]
    rw [Finset.filter_insert, if_neg (by omega)]
    omega
  · rw [if_neg hsc]
    have hlt : s1 < s0 := by
      unfold leOrd at hadj
      omega
    have hall : (insert s0 T).filter (fun x => s1 < x) = insert s0 T := by
      apply Finset.filter_true_of_mem
      intro x hx
      rcases Finset.mem_insert.1 hx with rfl | hx
      · omega
      · have := hTle x hx
        omega
    have hsplit : insert s0 T = insert s0 (T.filter (fun x => s0 < x)) := by
      ext x
      simp only [Finset.mem_insert, Finset.mem_filter]
      constructor
      · rintro (rfl | hx)
        · exact Or.inl rfl
        · have := hTle x hx
          rcases eq_or_lt_of_le this with heq | hlt2
          · exact Or.inl heq.symm
          · exact Or.inr ⟨hx, hlt2⟩
      · rintro (rfl | ⟨hx, _⟩)
        · exact Or.inl rfl
        · exact Or.inr hx
    rw [hall, hsplit, Finset.card_insert_of_not_mem (by
      intro hmem
      have := (Finset.mem_filter.1 hmem).2
      omega)]
    omega

/-! ### Key refinement: the loop's dense ranks equal the reference definition -/

theorem denseRanks_eq_ref (l : List PlayerEntry) (hs : Sorted l) :
    ∀ (i : Nat) (hi : i < l.length) (hdr : i < (denseRanks l).length),
      (denseRanks l).get ⟨i, hdr⟩ =
        denseRankRef ((l.take i).map PlayerEntry.score) ((l.get ⟨i, hi⟩).score) := by
  intro i
  induction i with
  | zero =>
    intro hi hdr
    cases l with
    | nil => simp at hi
    | cons e rest =>
      rw [denseRanks_get_zero]
      rw [denseRankRef]
      simp
  | succ k ih =>
    intro hi hdr
    have hk : k < l.length := by omega
    have hkdr : k < (denseRanks l).length := by omega
    rw [denseRanks_get_step l k hi hdr hkdr, ih hk hkdr, denseRankRef_step l hs k hi]

theorem denseRanks_bounds (l : List PlayerEntry) :
    ∀ (i : Nat) (hi : i < l.length) (hdr : i < (denseRanks l).length),
      1 ≤ (denseRanks l).get ⟨i, hdr⟩ ∧ (denseRanks l).get ⟨i, hdr⟩ ≤ (i : Int) + 1 := by
  intro i
  induction i with
  | zero =>
    intro hi hdr
    cases l with
    | nil => simp at hi
    | cons e rest =>
      rw [denseRanks_get_zero]
      norm_num
  | succ k ih =>
    intro hi hdr
    have hk : k < l.length := by omega
    have hkdr : k < (denseRanks l).length := by omega
    have hstep := denseRanks_get_step l k hi hdr hkdr
    have hk2 := ih hk hkdr
    rw [hstep]
    constructor
    · split <;> omega
    · split <;> push_cast <;> omega

/-! ### C10: self-inclusion of range queries -/

/-- C10 as stated is false on the program: a wrap-inducing `rng ≥ 0`
overflows the 64-bit window arithmetic of either range query (at
position 1, `rank + rng` wraps for `rng = 2^63 - 1`; `2*rng + 1` wraps
for `rng = 2^62`), the `make` capacity goes negative, and Go panics,
returning no entry at all for the player. -/
theorem c10_counterexample :
    (0 : Int) ≤ 9223372036854775807 ∧
      GetPlayerRankRange (applyUpdates [("a", 5, 1), ("b", 4, 2)]) "b"
          9223372036854775807 = RangeResult.panicked ∧
      (0 : Int) ≤ 4611686018427387904 ∧
      GetPlayerDenseRankRange (applyUpdates [("a", 5, 1), ("b", 4, 2)]) "b"
          4611686018427387904 = RangeResult.panicked :=
  ⟨by decide, by decide, by decide, by decide⟩

/-- **C10** (amended: `rng ≥ 0` restricted so that no 64-bit window
arithmetic wraps, i.e. `2*rng + 1 < 2^63` and `pos + 1 + rng < 2^63`,
the population fitting a Go slice length; wrap-inducing `rng` panics,
see the counterexample): for every reachable state, every playerId
known to the index (at sorted position `pos`), and every such `rng`,
`GetPlayerRankRange` returns exactly one entry for the player itself,
and `GetPlayerDenseRankRange` contains an entry for the player
itself. -/
theorem c10_self_inclusion (ups : List (String × Int × Int)) (p : String) (rng : Int)
    (hrng : 0 ≤ rng) (hr2 : 2 * rng + 1 < 9223372036854775808)
    (hlen : ((applyUpdates ups).ranking.length : Int) < 9223372036854775808)
    (pos : Nat) (hband : (pos : Int) + 1 + rng < 9223372036854775808)
    (hpos : pos < (applyUpdates ups).ranking.length)
    (hid : ((applyUpdates ups).ranking.get ⟨pos, hpos⟩).playerId = p) :
    (∃ l, GetPlayerRankRange (applyUpdates ups) p rng = RangeResult.found l ∧
        (l.filter (fun ri => ri.playerId == p)).length = 1) ∧
    (∃ l, GetPlayerDenseRankRange (applyUpdates ups) p rng = RangeResult.found l ∧
        ∃ ri ∈ l, ri.playerId = p) := by
  have hinv := inv_applyUpdates ups
  constructor
  · rw [getPlayerRankRange_closed hrng hlen (by omega : (pos : Int) + rng <
      9223372036854775808) hpos hid]
    refine ⟨_, rfl, ?_⟩
    rw [List.filter_map, List.length_map, ← List.countP_eq_length_filter]
    have h2 : max 0 ((pos : Int) - rng) ≤ (pos : Int) := max_le (by omega) (by omega)
    have h3 : (pos : Int) ≤ min (((applyUpdates ups).ranking.length : Int) - 1)
        ((pos : Int) + rng) := le_min (by omega) (by omega)
    have h4 : min (((applyUpdates ups).ranking.length : Int) - 1) ((pos : Int) + rng) ≤
        ((applyUpdates ups).ranking.length : Int) - 1 := min_le_left _ _
    apply countP_eq_one _ (List.nodup_range' _ _) pos
    · rw [List.mem_range'_1]
      omega
    · simp only [Function.comp]
      rw [List.getD_eq_getElem _ _ hpos]
      have : (applyUpdates ups).ranking[pos].playerId = p := hid
      simp [toRankInfo, this]
    · intro b hb hbne
      rw [List.mem_range'_1] at hb
      have hblen : b < (applyUpdates ups).ranking.length := by omega
      simp only [Function.comp]
      rw [List.getD_eq_getElem _ _ hblen]
      have hne : (applyUpdates ups).ranking[b].playerId ≠ p := by
        intro hcp
        exact hbne (id_inj_of_nodup hinv.nodupIds hblen hpos (by
          rw [List.get_eq_getElem, hcp]
          exact hid.symm))
      simp [toRankInfo, hne]
  · have hposann : pos < (denseAnnotate (applyUpdates ups).ranking).length := by
      rw [denseAnnotate_length]; exact hpos
    have hposdr : pos < (denseRanks (applyUpdates ups).ranking).length := by
      rw [denseRanks_length]; exact hpos
    obtain ⟨entry, hfind, hep⟩ := players_find_of_ranking hinv hpos hid
    have hgetann := denseAnnotate_get (applyUpdates ups).ranking pos hpos hposann hposdr
    have hfindann : (denseAnnotate (applyUpdates ups).ranking).find?
        (fun er => er.1.playerId == entry.playerId) =
        some ((applyUpdates ups).ranking.get ⟨pos, hpos⟩,
          (denseRanks (applyUpdates ups).ranking).get ⟨pos, hposdr⟩) := by
      rw [← hgetann]
      apply find?_eq_get_of_out _ _ pos hposann
      · intro j hj hne
        have hjlen : j < (applyUpdates ups).ranking.length := by
          rw [denseAnnotate_length] at hj; exact hj
        have hjdr : j < (denseRanks (applyUpdates ups).ranking).length := by
          rw [denseRanks_length]; exact hjlen
        rw [denseAnnotate_get _ j hjlen hj hjdr]
        dsimp only
        rw [hep]
        have hne' : ((applyUpdates ups).ranking.get ⟨j, hjlen⟩).playerId ≠ p := by
          intro hcp
          exact hne (id_inj_of_nodup hinv.nodupIds hjlen hpos (hcp.trans hid.symm))
        simpa using hne'
      · rw [hgetann]
        dsimp only
        rw [hep]
        simpa using hid
    have hpdr := denseRanks_bounds (applyUpdates ups).ranking pos hpos hposdr
    unfold GetPlayerDenseRankRange
    rw [hfind]
    dsimp only
    rw [hfindann]
    dsimp only
    have hwm : wrap64 (2 * rng) = 2 * rng := wrap64_eq_self (by omega) (by omega)
    have hwm1 : wrap64 (2 * rng + 1) = 2 * rng + 1 := wrap64_eq_self (by omega) (by omega)
    rw [hwm, hwm1, if_neg (by omega)]
    have hwl : wrap64 ((denseRanks (applyUpdates ups).ranking).get ⟨pos, hposdr⟩ - rng) =
        (denseRanks (applyUpdates ups).ranking).get ⟨pos, hposdr⟩ - rng :=
      wrap64_eq_self (by omega) (by omega)
    have hwh : wrap64 ((denseRanks (applyUpdates ups).ranking).get ⟨pos, hposdr⟩ + rng) =
        (denseRanks (applyUpdates ups).ranking).get ⟨pos, hposdr⟩ + rng :=
      wrap64_eq_self (by omega) (by omega)
    rw [hwl, hwh]
    refine ⟨_, rfl, ?_⟩
    refine ⟨toRankInfo ((applyUpdates ups).ranking.get ⟨pos, hpos⟩)
      ((denseRanks (applyUpdates ups).ranking).get ⟨pos, hposdr⟩), ?_, hid⟩
    apply List.mem_map.2
    refine ⟨((applyUpdates ups).ranking.get ⟨pos, hpos⟩,
      (denseRanks (applyUpdates ups).ranking).get ⟨pos, hposdr⟩), ?_, rfl⟩
    apply List.mem_filter.2
    refine ⟨?_, ?_⟩
    · rw [← hgetann]
      exact (denseAnnotate (applyUpdates ups).ranking).get_mem _ _
    · simp only [Bool.and_eq_true, decide_eq_true_eq]
      omega

/-- Witness for C10 on a concrete two-player state. -/
theorem c10_self_inclusion_witness :
    (0 : Int) ≤ 1 ∧ 2 * 1 + 1 < (9223372036854775808 : Int) ∧
      ((applyUpdates [("a", 5, 1), ("b", 4, 2)]).ranking.length : Int) <
        9223372036854775808 ∧
      (1 : Int) + 1 + 1 < 9223372036854775808 ∧
      ((∃ l, GetPlayerRankRange (applyUpdates [("a", 5, 1), ("b", 4, 2)]) "b" 1 =
            RangeResult.found l ∧
          (l.filter (fun ri => ri.playerId == "b")).length = 1) ∧
        (∃ l, GetPlayerDenseRankRange (applyUpdates [("a", 5, 1), ("b", 4, 2)]) "b" 1 =
            RangeResult.found l ∧
          ∃ ri ∈ l, ri.playerId = "b")) :=
  ⟨by decide, by decide, by decide, by decide,
    c10_self_inclusion [("a", 5, 1), ("b", 4, 2)] "b" 1 (by decide) (by decide) (by decide)
      1 (by decide) (by decide) (by decide)⟩

theorem denseAnnotate_fst (l : List PlayerEntry) :
    (denseAnnotate l).map Prod.fst = l :=
  denseAux_fst l 1 (-1) true

/-! ### C2: dense ranks of GetDenseTopN agree with the reference definition -/

/-- **C2** Refinement: whenever `GetDenseTopN` returns a slice, the
dense rank it assigned to the entry at position `i` equals one plus the
number of distinct score values strictly greater than that entry's score
among the entries enumerated before it. -/
theorem c2_dense_top_n_refinement (ups : List (String × Int × Int)) (n : Int)
    (l : List RankInfo) (hok : GetDenseTopN (applyUpdates ups) n = TopResult.ok l)
    (i : Nat) (hi : i < l.length) :
    (l.get ⟨i, hi⟩).rank =
      denseRankRef ((l.take i).map RankInfo.score) ((l.get ⟨i, hi⟩).score) := by
  unfold GetDenseTopN at hok
  split at hok
  · cases hok
  · have hl : l = (denseAnnotate ((applyUpdates ups).ranking.take n.toNat)).map
        (fun er => toRankInfo er.1 er.2) := by
      cases hok
      rfl
    subst hl
    have hsorted : Sorted ((applyUpdates ups).ranking.take n.toNat) :=
      List.Pairwise.sublist (List.take_sublist _ _) (inv_applyUpdates ups).sorted
    have hlen : i < ((applyUpdates ups).ranking.take n.toNat).length := by
      rw [List.length_map, denseAnnotate_length] at hi
      exact hi
    have hiann : i < (denseAnnotate ((applyUpdates ups).ranking.take n.toNat)).length := by
      rw [denseAnnotate_length]; exact hlen
    have hidr : i < (denseRanks ((applyUpdates ups).ranking.take n.toNat)).length := by
      rw [denseRanks_length]; exact hlen
    have hget : ((denseAnnotate ((applyUpdates ups).ranking.take n.toNat)).map
        (fun er => toRankInfo er.1 er.2)).get ⟨i, hi⟩ =
        toRankInfo (((applyUpdates ups).ranking.take n.toNat).get ⟨i, hlen⟩)
          ((denseRanks ((applyUpdates ups).ranking.take n.toNat)).get ⟨i, hidr⟩) := by
      rw [List.get_map, denseAnnotate_get _ i hlen _ hidr]
    have hscores :
        ((((denseAnnotate ((applyUpdates ups).ranking.take n.toNat)).map
          (fun er => toRankInfo er.1 er.2)).take i).map RankInfo.score) =
        ((((applyUpdates ups).ranking.take n.toNat).take i).map PlayerEntry.score) := by
      rw [← List.map_take, List.map_map]
      calc ((denseAnnotate ((applyUpdates ups).ranking.take n.toNat)).take i).map
            (RankInfo.score ∘ fun er : PlayerEntry × Int => toRankInfo er.1 er.2)
          = ((denseAnnotate ((applyUpdates ups).ranking.take n.toNat)).take i).map
            (PlayerEntry.score ∘ Prod.fst) := rfl
        _ = (((denseAnnotate ((applyUpdates ups).ranking.take n.toNat)).take i).map
            Prod.fst).map PlayerEntry.score := by rw [List.map_map]
        _ = ((((applyUpdates ups).ranking.take n.toNat)).take i).map PlayerEntry.score := by
            rw [List.map_take, denseAnnotate_fst]
    rw [hget, hscores, denseRanks_eq_ref _ hsorted i hlen hidr]
    rfl

/-- Witness for C2 on a two-way tie followed by a lower score. -/
theorem c2_dense_top_n_refinement_witness :
    GetDenseTopN (applyUpdates [("a", 100, 1), ("b", 100, 2), ("c", 90, 3)]) 3 =
        TopResult.ok [⟨"a", 100, 1, 1⟩, ⟨"b", 100, 1, 2⟩, ⟨"c", 90, 2, 3⟩] ∧
      2 < ([⟨"a", 100, 1, 1⟩, ⟨"b", 100, 1, 2⟩, ⟨"c", 90, 2, 3⟩] : List RankInfo).length ∧
      (([⟨"a", 100, 1, 1⟩, ⟨"b", 100, 1, 2⟩, ⟨"c", 90, 2, 3⟩] : List RankInfo).get
          ⟨2, by decide⟩).rank =
        denseRankRef ((([⟨"a", 100, 1, 1⟩, ⟨"b", 100, 1, 2⟩, ⟨"c", 90, 2, 3⟩] :
            List RankInfo).take 2).map RankInfo.score)
          ((([⟨"a", 100, 1, 1⟩, ⟨"b", 100, 1, 2⟩, ⟨"c", 90, 2, 3⟩] : List RankInfo).get
            ⟨2, by decide⟩).score) :=
  ⟨by decide, by decide,
    c2_dense_top_n_refinement [("a", 100, 1), ("b", 100, 2), ("c", 90, 3)] 3
      [⟨"a", 100, 1, 1⟩, ⟨"b", 100, 1, 2⟩, ⟨"c", 90, 2, 3⟩] (by decide) 2 (by decide)⟩

/-! ### C6: GetPlayerDenseRankRange -/

/-- C6 as stated is false: for a known player the `make` capacity
`2*rng + 1` goes negative both for a negative `rng` and, by 64-bit
wrap-around, for `rng = 2^62`, and Go panics at run time in both
cases. -/
theorem c6_counterexample :
    GetPlayerDenseRankRange (applyUpdates [("a", 1, 1)]) "a" (-1) = RangeResult.panicked ∧
      (0 : Int) ≤ 4611686018427387904 ∧
      GetPlayerDenseRankRange (applyUpdates [("a", 1, 1)]) "a" 4611686018427387904 =
        RangeResult.panicked := by
  exact ⟨by decide, by decide, by decide⟩

/-- **C6** (amended: `rng ≥ 0` restricted so that no 64-bit arithmetic
wraps, i.e. `2*rng + 1 < 2^63` and `pos + 1 + rng < 2^63`, the
population fitting a Go slice length; negative and wrap-inducing `rng`
both panic, see the counterexample): for a known player with dense rank
`d` over the entire population, the query returns exactly the entries
whose dense rank lies in `[d - rng, d + rng]` (dense rank stated via
the reference count-of-greater-distinct-scores definition), each
carrying its own dense rank; and the result can hold more than
`2*rng + 1` entries when ties are wide. -/
theorem c6_dense_rank_range (ups : List (String × Int × Int)) (p : String) (rng : Int)
    (hrng : 0 ≤ rng) (hr2 : 2 * rng + 1 < 9223372036854775808)
    (hlen : ((applyUpdates ups).ranking.length : Int) < 9223372036854775808)
    (pos : Nat) (hband : (pos : Int) + 1 + rng < 9223372036854775808)
    (hpos : pos < (applyUpdates ups).ranking.length)
    (hid : ((applyUpdates ups).ranking.get ⟨pos, hpos⟩).playerId = p) :
    (∃ l, GetPlayerDenseRankRange (applyUpdates ups) p rng = RangeResult.found l ∧
      ∀ ri : RankInfo, ri ∈ l ↔
        ∃ (i : Nat) (hi : i < (applyUpdates ups).ranking.length),
          ri = toRankInfo ((applyUpdates ups).ranking.get ⟨i, hi⟩)
            (denseRankRef (((applyUpdates ups).ranking.take i).map PlayerEntry.score)
              (((applyUpdates ups).ranking.get ⟨i, hi⟩).score)) ∧
          denseRankRef (((applyUpdates ups).ranking.take pos).map PlayerEntry.score)
              (((applyUpdates ups).ranking.get ⟨pos, hpos⟩).score) - rng ≤
            denseRankRef (((applyUpdates ups).ranking.take i).map PlayerEntry.score)
              (((applyUpdates ups).ranking.get ⟨i, hi⟩).score) ∧
          denseRankRef (((applyUpdates ups).ranking.take i).map PlayerEntry.score)
              (((applyUpdates ups).ranking.get ⟨i, hi⟩).score) ≤
            denseRankRef (((applyUpdates ups).ranking.take pos).map PlayerEntry.score)
              (((applyUpdates ups).ranking.get ⟨pos, hpos⟩).score) + rng) ∧
    (∃ (ups2 : List (String × Int × Int)) (p2 : String) (rng2 : Int) (l2 : List RankInfo),
      0 ≤ rng2 ∧
      GetPlayerDenseRankRange (applyUpdates ups2) p2 rng2 = RangeResult.found l2 ∧
      2 * rng2 + 1 < (l2.length : Int)) := by
  constructor
  · have hinv := inv_applyUpdates ups
    have hposann : pos < (denseAnnotate (applyUpdates ups).ranking).length := by
      rw [denseAnnotate_length]; exact hpos
    have hposdr : pos < (denseRanks (applyUpdates ups).ranking).length := by
      rw [denseRanks_length]; exact hpos
    obtain ⟨entry, hfind, hep⟩ := players_find_of_ranking hinv hpos hid
    have hgetann := denseAnnotate_get (applyUpdates ups).ranking pos hpos hposann hposdr
    have hfindann : (denseAnnotate (applyUpdates ups).ranking).find?
        (fun er => er.1.playerId == entry.playerId) =
        some ((applyUpdates ups).ranking.get ⟨pos, hpos⟩,
          (denseRanks (applyUpdates ups).ranking).get ⟨pos, hposdr⟩) := by
      rw [← hgetann]
      apply find?_eq_get_of_out _ _ pos hposann
      · intro j hj hne
        have hjlen : j < (applyUpdates ups).ranking.length := by
          rw [denseAnnotate_length] at hj; exact hj
        have hjdr : j < (denseRanks (applyUpdates ups).ranking).length := by
          rw [denseRanks_length]; exact hjlen
        rw [denseAnnotate_get _ j hjlen hj hjdr]
        dsimp only
        rw [hep]
        have hne' : ((applyUpdates ups).ranking.get ⟨j, hjlen⟩).playerId ≠ p := by
          intro hcp
          exact hne (id_inj_of_nodup hinv.nodupIds hjlen hpos (hcp.trans hid.symm))
        simpa using hne'
      · rw [hgetann]
        dsimp only
        rw [hep]
        simpa using hid
    have hpdr := denseRanks_bounds (applyUpdates ups).ranking pos hpos hposdr
    unfold GetPlayerDenseRankRange
    rw [hfind]
    dsimp only
    rw [hfindann]
    dsimp only
    have hwm : wrap64 (2 * rng) = 2 * rng := wrap64_eq_self (by omega) (by omega)
    have hwm1 : wrap64 (2 * rng + 1) = 2 * rng + 1 := wrap64_eq_self (by omega) (by omega)
    rw [hwm, hwm1, if_neg (by omega)]
    have hwl : wrap64 ((denseRanks (applyUpdates ups).ranking).get ⟨pos, hposdr⟩ - rng) =
        (denseRanks (applyUpdates ups).ranking).get ⟨pos, hposdr⟩ - rng :=
      wrap64_eq_self (by omega) (by omega)
    have hwh : wrap64 ((denseRanks (applyUpdates ups).ranking).get ⟨pos, hposdr⟩ + rng) =
        (denseRanks (applyUpdates ups).ranking).get ⟨pos, hposdr⟩ + rng :=
      wrap64_eq_self (by omega) (by omega)
    rw [hwl, hwh]
    refine ⟨_, rfl, ?_⟩
    intro ri
    have hdref : ∀ (j : Nat) (hj : j < (applyUpdates ups).ranking.length)
        (hjdr : j < (denseRanks (applyUpdates ups).ranking).length),
        (denseRanks (applyUpdates ups).ranking).get ⟨j, hjdr⟩ =
          denseRankRef (((applyUpdates ups).ranking.take j).map PlayerEntry.score)
            (((applyUpdates ups).ranking.get ⟨j, hj⟩).score) :=
      fun j hj hjdr => denseRanks_eq_ref _ hinv.sorted j hj hjdr
    constructor
    · intro hmem
      obtain ⟨er, hermem, herri⟩ := List.mem_map.1 hmem
      obtain ⟨herann, herband⟩ := List.mem_filter.1 hermem
      obtain ⟨⟨j, hjann⟩, hjget⟩ := List.mem_iff_get.1 herann
      have hjlen : j < (applyUpdates ups).ranking.length := by
        rw [denseAnnotate_length] at hjann
        exact hjann
      have hjdr : j < (denseRanks (applyUpdates ups).ranking).length := by
        rw [denseRanks_length]; exact hjlen
      rw [denseAnnotate_get _ j hjlen hjann hjdr] at hjget
      refine ⟨j, hjlen, ?_, ?_, ?_⟩
      · rw [← herri, ← hjget]
        rw [hdref j hjlen hjdr]
      · rw [← hjget] at herband
        simp only [Bool.and_eq_true, decide_eq_true_eq] at herband
        rw [← hdref j hjlen hjdr, ← hdref pos hpos hposdr]
        exact herband.1
      · rw [← hjget] at herband
        simp only [Bool.and_eq_true, decide_eq_true_eq] at herband
        rw [← hdref j hjlen hjdr, ← hdref pos hpos hposdr]
        exact herband.2
    · rintro ⟨j, hjlen, hri, hlow, hhigh⟩
      have hjann : j < (denseAnnotate (applyUpdates ups).ranking).length := by
        rw [denseAnnotate_length]; exact hjlen
      have hjdr : j < (denseRanks (applyUpdates ups).ranking).length := by
        rw [denseRanks_length]; exact hjlen
      apply List.mem_map.2
      refine ⟨((applyUpdates ups).ranking.get ⟨j, hjlen⟩,
        (denseRanks (applyUpdates ups).ranking).get ⟨j, hjdr⟩), ?_, ?_⟩
      · apply List.mem_filter.2
        refine ⟨?_, ?_⟩
        · rw [← denseAnnotate_get _ j hjlen hjann hjdr]
          exact (denseAnnotate (applyUpdates ups).ranking).get_mem _ _
        · simp only [Bool.and_eq_true, decide_eq_true_eq]
          rw [hdref j hjlen hjdr, hdref pos hpos hposdr]
          exact ⟨hlow, hhigh⟩
      · rw [hri, hdref j hjlen hjdr]
  · refine ⟨[("a", 100, 1), ("b", 100, 2)], "a", 0,
      [⟨"a", 100, 1, 1⟩, ⟨"b", 100, 1, 2⟩], by decide, by decide, by decide⟩

/-- Witness for C6 on a single-player state with `rng = 0`. -/
theorem c6_dense_rank_range_witness :
    (0 : Int) ≤ 0 ∧ 2 * 0 + 1 < (9223372036854775808 : Int) ∧
      ((applyUpdates [("a", 7, 1)]).ranking.length : Int) < 9223372036854775808 ∧
      (0 : Int) + 1 + 0 < 9223372036854775808 ∧
      0 < (applyUpdates [("a", 7, 1)]).ranking.length ∧
      ((∃ l, GetPlayerDenseRankRange (applyUpdates [("a", 7, 1)]) "a" 0 =
            RangeResult.found l ∧
          ∀ ri : RankInfo, ri ∈ l ↔
            ∃ (i : Nat) (hi : i < (applyUpdates [("a", 7, 1)]).ranking.length),
              ri = toRankInfo ((applyUpdates [("a", 7, 1)]).ranking.get ⟨i, hi⟩)
                (denseRankRef (((applyUpdates [("a", 7, 1)]).ranking.take i).map
                    PlayerEntry.score)
                  (((applyUpdates [("a", 7, 1)]).ranking.get ⟨i, hi⟩).score)) ∧
              denseRankRef (((applyUpdates [("a", 7, 1)]).ranking.take 0).map
                    PlayerEntry.score)
                  (((applyUpdates [("a", 7, 1)]).ranking.get ⟨0, by decide⟩).score) - 0 ≤
                denseRankRef (((applyUpdates [("a", 7, 1)]).ranking.take i).map
                    PlayerEntry.score)
                  (((applyUpdates [("a", 7, 1)]).ranking.get ⟨i, hi⟩).score) ∧
              denseRankRef (((applyUpdates [("a", 7, 1)]).ranking.take i).map
                    PlayerEntry.score)
                  (((applyUpdates [("a", 7, 1)]).ranking.get ⟨i, hi⟩).score) ≤
                denseRankRef (((applyUpdates [("a", 7, 1)]).ranking.take 0).map
                    PlayerEntry.score)
                  (((applyUpdates [("a", 7, 1)]).ranking.get ⟨0, by decide⟩).score) + 0) ∧
        (∃ (ups2 : List (String × Int × Int)) (p2 : String) (rng2 : Int)
            (l2 : List RankInfo),
          0 ≤ rng2 ∧
          GetPlayerDenseRankRange (applyUpdates ups2) p2 rng2 = RangeResult.found l2 ∧
          2 * rng2 + 1 < (l2.length : Int))) :=
  ⟨by decide, by decide, by decide, by decide, by decide,
    c6_dense_rank_range [("a", 7, 1)] "a" 0 (by decide) (by decide) (by decide) 0
      (by decide) (by decide) (by decide)⟩

end LeaderBoard
